import Mathlib

/-!
Shallow embedding of the 2048 rules engine (`src/lib/gameLogic.ts`) and the
parts of its data model (`src/types.ts`) that the verified properties need.

JavaScript mutation is rendered as explicit state passing: the per-move
`tilesById` map of mutable tile copies becomes a rebuild of the tile list from
per-line processing results, the two `Math.random()` draws of the spawner
become explicit parameters, and the module-global `nextTileId` counter becomes
an explicit id parameter.
-/

namespace Game2048

/-- Structure `TileData` from `src/types.ts`: id, value, position, and the transient
`merged` flag that the move functions set on merge targets. -/
structure TileData where
  id : Nat
  value : Nat
  row : Int
  col : Int
  merged : Bool := false
deriving Repr, DecidableEq

/-- Type `Grid` from `src/types.ts`: a matrix of numbers, 0 meaning empty. -/
abbrev Grid := List (List Nat)

/-- The `GRID_SIZE` constant. -/
def GRID_SIZE : Nat := 4

/-- Function `createEmptyGrid`: a `size × size` grid of zeros. -/
def createEmptyGrid (size : Nat) : Grid :=
  List.replicate size (List.replicate size 0)

/-- Write `v` at `grid[r][c]` (the `grid[tile.row][tile.col] = tile.value`
assignment of `tilesToGrid`). -/
def setCell (g : Grid) (r c v : Nat) : Grid :=
  g.set r ((g.getD r []).set c v)

/-- Read `grid[r][c]`, with 0 for an out-of-bounds access. -/
def cellValue (g : Grid) (r c : Nat) : Nat :=
  (g.getD r []).getD c 0

/-- The bounds check of `tilesToGrid`:
`tile.row >= 0 && tile.row < size && tile.col >= 0 && tile.col < size`. -/
def inGridRange (size : Nat) (t : TileData) : Prop :=
  0 ≤ t.row ∧ t.row < (size : Int) ∧ 0 ≤ t.col ∧ t.col < (size : Int)

instance (size : Nat) (t : TileData) : Decidable (inGridRange size t) := by
  unfold inGridRange; infer_instance

/-- One `forEach` step of `tilesToGrid`. -/
def projectTile (size : Nat) (g : Grid) (t : TileData) : Grid :=
  if inGridRange size t then setCell g t.row.toNat t.col.toNat t.value else g

/-- Function `tilesToGrid`: project the sparse tile list onto a dense grid; a tile is
written only when `tile.row ∈ [0,size)` and `tile.col ∈ [0,size)`. -/
def tilesToGrid (tiles : List TileData) (size : Nat) : Grid :=
  tiles.foldl (projectTile size) (createEmptyGrid size)

/-- A tile's coordinates both lie in `[0, GRID_SIZE)`. -/
def inBoard (t : TileData) : Prop :=
  0 ≤ t.row ∧ t.row < (GRID_SIZE : Int) ∧ 0 ≤ t.col ∧ t.col < (GRID_SIZE : Int)

instance (t : TileData) : Decidable (inBoard t) := by
  unfold inBoard; infer_instance

/-- Predicate: `n` is 2, 4, 8, ...: a power of two that is at least 2 (the exponent is
bounded by `n`, so the predicate is decidable by search). -/
def isPowTwoVal (n : Nat) : Prop :=
  2 ≤ n ∧ (List.range (n + 1)).any (fun k => n == 2 ^ k) = true

instance (n : Nat) : Decidable (isPowTwoVal n) := by
  unfold isPowTwoVal; infer_instance

/-- Well-formed tile list: pairwise distinct ids and positions, in-range
coordinates, values that are powers of two ≥ 2, per the spec's data-model
invariants. -/
def WellFormed (tiles : List TileData) : Prop :=
  tiles.Pairwise (fun a b => a.id ≠ b.id ∧ (a.row, a.col) ≠ (b.row, b.col)) ∧
  ∀ t ∈ tiles, inBoard t ∧ isPowTwoVal t.value

instance (tiles : List TileData) : Decidable (WellFormed tiles) := by
  unfold WellFormed; infer_instance

/-! ## Grid-level row pipeline (`slideRowLeft`, `mergeRowLeft`, `moveRowLeft`) -/

/-- Function `slideRowLeft`: drop zeros, pad with zeros on the right to `GRID_SIZE`. -/
def slideRowLeft (row : List Nat) : List Nat :=
  let filteredRow := row.filter (fun v => v ≠ 0)
  filteredRow ++ List.replicate (GRID_SIZE - filteredRow.length) 0

/-- One iteration of the `mergeRowLeft` loop at index `i`. -/
def mergeStep (st : List Nat × Nat) (i : Nat) : List Nat × Nat :=
  let row := st.1
  let v := row.getD i 0
  if v ≠ 0 ∧ v = row.getD (i + 1) 0 then
    ((row.set i (2 * v)).set (i + 1) 0, st.2 + 2 * v)
  else st

/-- Function `mergeRowLeft`: merge adjacent equal entries left-to-right, accumulating
the score increase. -/
def mergeRowLeft (row : List Nat) : List Nat × Nat :=
  (List.range (GRID_SIZE - 1)).foldl mergeStep (row, 0)

/-- Function `moveRowLeft`: slide, merge, slide again. -/
def moveRowLeft (row : List Nat) : List Nat × Nat :=
  let slidedOnce := slideRowLeft row
  let merged := mergeRowLeft slidedOnce
  (slideRowLeft merged.1, merged.2)

/-! ## The tile-based directional move engine

`moveLeft`, `moveRight`, `moveUp`, `moveDown` are the same per-line
slide/merge walk with the axis, the sort order, and the target edge mirrored
(`moveUp`/`moveDown` additionally skip zero-valued tiles in the walk).  The
engine is embedded once, parametrized by the direction. -/

inductive Dir
  | left
  | right
  | up
  | down
deriving DecidableEq, Repr

/-- Vertical moves (`moveUp`/`moveDown`) work on columns. -/
def Dir.vertical : Dir → Bool
  | .up | .down => true
  | .left | .right => false

/-- Moves toward the high-index edge (`moveRight`/`moveDown`). -/
def Dir.towardHigh : Dir → Bool
  | .right | .down => true
  | .left | .up => false

/-- The coordinate along the move axis (col for left/right, row for up/down). -/
def mainAxis (d : Dir) (t : TileData) : Int :=
  if d.vertical then t.row else t.col

/-- The coordinate across the move axis. -/
def perpAxis (d : Dir) (t : TileData) : Int :=
  if d.vertical then t.col else t.row

/-- Overwrite the coordinate along the move axis. -/
def setMain (d : Dir) (t : TileData) (v : Int) : TileData :=
  if d.vertical then { t with row := v } else { t with col := v }

/-- Sort key realizing the source comparators `a.col - b.col`,
`b.col - a.col`, `a.row - b.row`, `b.row - a.row`: ascending in the main
coordinate, negated for the high-edge directions. -/
def sortKey (d : Dir) (t : TileData) : Int :=
  if d.towardHigh then -(mainAxis d t) else mainAxis d t

/-- The stable per-line sort of the source's `.sort(...)` calls. -/
def sortTiles (d : Dir) (l : List TileData) : List TileData :=
  l.insertionSort (fun a b => sortKey d a ≤ sortKey d b)

/-- Result of walking one line: the compacted tiles in walk order, the score
gained, and the ids deleted by merges. -/
structure LineOut where
  out : List TileData
  score : Nat
  deleted : List Nat
deriving Repr, DecidableEq

/-- The inner walk of every move function: traverse the sorted line keeping
an output list; merge the current tile into the last output tile when the
values match and that tile was not itself produced by a merge in this walk
(`lastMergedTileId` guard), otherwise append.  `skipZero` renders the
`if (currentTile.value === 0) continue;` line of `moveUp`/`moveDown`. -/
def walkLine (skipZero : Bool) :
    List TileData → List TileData → Option Nat → Nat → List Nat → LineOut
  | [], acc, _, score, del => ⟨acc.reverse, score, del⟩
  | t :: rest, acc, lm, score, del =>
    if skipZero = true ∧ t.value = 0 then
      walkLine skipZero rest acc lm score del
    else
      match acc with
      | last :: accTl =>
        if last.value = t.value ∧ some last.id ≠ lm then
          walkLine skipZero rest
            ({ last with value := 2 * t.value, merged := true } :: accTl)
            (some last.id) (score + 2 * t.value) (del ++ [t.id])
        else
          walkLine skipZero rest (t :: acc) lm score del
      | [] => walkLine skipZero rest [t] lm score del

/-- Target coordinate for the tile at walk index `i`: `i` from the low edge,
`GRID_SIZE - 1 - i` from the high edge. -/
def targetAt (d : Dir) (i : Nat) : Int :=
  if d.towardHigh then (GRID_SIZE : Int) - 1 - i else i

/-- Re-assign the main coordinates of a walked line to the target positions
(the `tile.col = i` / `tile.row = newRow` loops). -/
def placeFrom (d : Dir) : Nat → List TileData → List TileData
  | _, [] => []
  | i, t :: ts => setMain d t (targetAt d i) :: placeFrom d (i + 1) ts

/-- Whether every tile of a walked line already sits at its target main
coordinate (negation of the repositioning loop's `moved = true`). -/
def mainsMatchFrom (d : Dir) : Nat → List TileData → Bool
  | _, [] => true
  | i, t :: ts => (mainAxis d t == targetAt d i) && mainsMatchFrom d (i + 1) ts

/-- The tiles of line `p` (row `p` for horizontal moves, column `p` for
vertical ones), sorted nearest-target-edge first. -/
def groupOf (d : Dir) (tiles : List TileData) (p : Nat) : List TileData :=
  sortTiles d (tiles.filter (fun t => perpAxis d t = (p : Int)))

/-- The walk of line `p`. -/
def lineOut (d : Dir) (tiles : List TileData) (p : Nat) : LineOut :=
  walkLine d.vertical (groupOf d tiles p) [] none 0 []

/-- Line `p` after repositioning. -/
def placedLine (d : Dir) (tiles : List TileData) (p : Nat) : List TileData :=
  placeFrom d 0 (lineOut d tiles p).out

/-- The source's `moved` contribution of line `p`: a merge happened or some
tile's main coordinate changed. -/
def lineMoved (d : Dir) (tiles : List TileData) (p : Nat) : Bool :=
  !(lineOut d tiles p).deleted.isEmpty ||
    !(mainsMatchFrom d 0 (lineOut d tiles p).out)

/-- All repositioned tiles of all lines (the updated entries of `tilesById`). -/
def updatesOf (d : Dir) (tiles : List TileData) : List TileData :=
  (List.range GRID_SIZE).flatMap (fun p => placedLine d tiles p)

/-- All ids deleted by merges (the `tilesById.delete` calls). -/
def deletedOf (d : Dir) (tiles : List TileData) : List Nat :=
  (List.range GRID_SIZE).flatMap (fun p => (lineOut d tiles p).deleted)

/-- Rebuild `Array.from(tilesById.values())`: the input tiles in order, with
deleted ids dropped and updated records substituted. -/
def applyUpdates (upd : List TileData) (del : List Nat) (tiles : List TileData) :
    List TileData :=
  tiles.filterMap (fun t =>
    if t.id ∈ del then none
    else
      match upd.find? (fun u => u.id == t.id) with
      | some u => some u
      | none => some t)

/-- The `MoveResult` interface. -/
structure MoveResult where
  updatedTiles : List TileData
  scoreIncrease : Nat
  moved : Bool
deriving Repr, DecidableEq

/-- The shared engine of `moveLeft`/`moveRight`/`moveUp`/`moveDown`. -/
def moveDir (d : Dir) (tiles : List TileData) : MoveResult :=
  { updatedTiles := applyUpdates (updatesOf d tiles) (deletedOf d tiles) tiles
    scoreIncrease := ((List.range GRID_SIZE).map fun p => (lineOut d tiles p).score).sum
    moved := (List.range GRID_SIZE).any fun p => lineMoved d tiles p }

/-- Function `moveLeft`. -/
def moveLeft (tiles : List TileData) : MoveResult := moveDir .left tiles

/-- Function `moveRight`. -/
def moveRight (tiles : List TileData) : MoveResult := moveDir .right tiles

/-- Function `moveUp`. -/
def moveUp (tiles : List TileData) : MoveResult := moveDir .up tiles

/-- Function `moveDown`. -/
def moveDown (tiles : List TileData) : MoveResult := moveDir .down tiles

/-! ## Spawner, initialization, terminal-state detection -/

/-- An empty-cell candidate of `addRandomTile`. -/
structure Cell where
  row : Nat
  col : Nat
deriving Repr, DecidableEq

/-- The empty cells of row `r`, scanned left to right. -/
def zeroCellsInRow (grid : Grid) (r : Nat) : List Cell :=
  (List.range GRID_SIZE).filterMap fun c =>
    if cellValue grid r c = 0 then some ⟨r, c⟩ else none

/-- All empty cells of the grid in row-major scan order. -/
def allZeroCells (grid : Grid) : List Cell :=
  (List.range GRID_SIZE).flatMap (zeroCellsInRow grid)

/-- The `emptyCells` list built by `addRandomTile`: the empty cells of the top
row when there are any, otherwise the empty cells of rows 1..GRID_SIZE-1 in
row-major order. -/
def emptyCellsOf (tiles : List TileData) : List Cell :=
  let grid := tilesToGrid tiles GRID_SIZE
  let top := zeroCellsInRow grid 0
  if top.isEmpty then
    ((List.range GRID_SIZE).drop 1).flatMap (zeroCellsInRow grid)
  else top

/-- Function `addRandomTile`, with the two `Math.random()` draws and the global
`nextTileId` counter made explicit: `randIdx % emptyCells.length` renders
`Math.floor(Math.random() * emptyCells.length)`, and `lowRoll` renders
`Math.random() < 0.9` (so `true` spawns a 2, `false` a 4). -/
def addRandomTile (tiles : List TileData) (randIdx : Nat) (lowRoll : Bool)
    (newId : Nat) : Option (List TileData × TileData) :=
  let emptyCells := emptyCellsOf tiles
  if emptyCells.isEmpty then none
  else
    let cell := emptyCells.getD (randIdx % emptyCells.length) ⟨0, 0⟩
    let value := if lowRoll then 2 else 4
    let newTile : TileData :=
      { id := newId, value := value, row := (cell.row : Int), col := (cell.col : Int) }
    some (tiles ++ [newTile], newTile)

/-- Function `initializeGame`, with the randomness and ids of its two `addRandomTile`
calls made explicit. -/
def initializeGame (r1 : Nat) (b1 : Bool) (id1 : Nat) (r2 : Nat) (b2 : Bool)
    (id2 : Nat) : Grid × List TileData :=
  let grid := createEmptyGrid GRID_SIZE
  let tiles : List TileData := []
  let tiles :=
    match addRandomTile tiles r1 b1 id1 with
    | some res => res.1
    | none => tiles
  let tiles :=
    match addRandomTile tiles r2 b2 id2 with
    | some res => res.1
    | none => tiles
  (grid, tiles)

/-- Function `checkAvailableMoves`: true when fewer tiles than cells, otherwise true
iff some simulated direction reports movement. -/
def checkAvailableMoves (tiles : List TileData) : Bool :=
  if tiles.length < GRID_SIZE * GRID_SIZE then true
  else if (moveLeft tiles).moved then true
  else if (moveRight tiles).moved then true
  else if (moveUp tiles).moved then true
  else if (moveDown tiles).moved then true
  else false

/-- Total value on the board. -/
def valueSum (tiles : List TileData) : Nat :=
  (tiles.map fun t => t.value).sum

/-! ## Derived notions and concrete boards used by the verification -/

/-- Tile `u` is `t` after this move: same id and position, and either untouched or
doubled-and-flagged by a single merge. -/
def DerivedFrom (t u : TileData) : Prop :=
  u.id = t.id ∧ u.row = t.row ∧ u.col = t.col ∧
    ((u.value = t.value ∧ u.merged = t.merged) ∨
      (u.value = 2 * t.value ∧ u.merged = true))

/-- One step of `applyUpdates`. -/
def updStep (upd : List TileData) (del : List Nat) (t : TileData) : Option TileData :=
  if t.id ∈ del then none
  else
    match upd.find? (fun u => u.id == t.id) with
    | some u => some u
    | none => some t

/-- A `size × size` grid. -/
def gridDims (g : Grid) (size : Nat) : Prop :=
  g.length = size ∧ ∀ row ∈ g, row.length = size

/-- An example list with tiles outside the board on both sides. -/
def strayTiles : List TileData :=
  [⟨0, 2, -1, 2, false⟩, ⟨1, 4, 1, 1, false⟩, ⟨2, 8, 5, 0, false⟩, ⟨3, 16, 2, 7, false⟩]

/-- The row `[2,2,2,0]` as tiles in row 0. -/
def threeTwosRow : List TileData :=
  [⟨0, 2, 0, 0, false⟩, ⟨1, 2, 0, 1, false⟩, ⟨2, 2, 0, 2, false⟩]

/-- A board with every cell occupied except (2,2). -/
def nearFullBoard : List TileData :=
  [⟨0, 2, 0, 0, false⟩, ⟨1, 4, 0, 1, false⟩, ⟨2, 2, 0, 2, false⟩, ⟨3, 4, 0, 3, false⟩,
   ⟨4, 4, 1, 0, false⟩, ⟨5, 2, 1, 1, false⟩, ⟨6, 4, 1, 2, false⟩, ⟨7, 2, 1, 3, false⟩,
   ⟨8, 2, 2, 0, false⟩, ⟨9, 4, 2, 1, false⟩, ⟨11, 4, 2, 3, false⟩,
   ⟨12, 4, 3, 0, false⟩, ⟨13, 2, 3, 1, false⟩, ⟨14, 4, 3, 2, false⟩, ⟨15, 2, 3, 3, false⟩]

/-- The row `[2,2,0,0]` as tiles. -/
def twoTwosRow : List TileData := [⟨0, 2, 0, 0, false⟩, ⟨1, 2, 0, 1, false⟩]

/-- The sixteen board cells. -/
def cellPairs : List (Int × Int) :=
  [(0, 0), (0, 1), (0, 2), (0, 3),
   (1, 0), (1, 1), (1, 2), (1, 3),
   (2, 0), (2, 1), (2, 2), (2, 3),
   (3, 0), (3, 1), (3, 2), (3, 3)]

/-- The row `[2,2,2,2]` as tiles. -/
def fourTwosRow : List TileData :=
  [⟨0, 2, 0, 0, false⟩, ⟨1, 2, 0, 1, false⟩, ⟨2, 2, 0, 2, false⟩, ⟨3, 2, 0, 3, false⟩]

/-- A lone tile away from the edge: sliding only, no merge. -/
def loneTile : List TileData := [⟨0, 2, 0, 2, false⟩]

/-- Two adjacent tiles may hold equal values only when one of them carries
this move's merge flag. -/
def MergedAdj (a b : TileData) : Prop :=
  a.value = b.value → (a.merged = true ∨ b.merged = true)

/-! ## Walk lemmas -/

theorem walk_score_le (sz : Bool) :
    ∀ (input acc : List TileData) (lm : Option Nat) (s : Nat) (del : List Nat),
      s ≤ (walkLine sz input acc lm s del).score := by
  intro input
  induction input with
  | nil => intro acc lm s del; simp [walkLine]
  | cons t rest ih =>
    intro acc lm s del
    cases acc with
    | nil =>
      simp only [walkLine]
      split
      · exact ih [] lm s del
      · exact ih [t] lm s del
    | cons last accTl =>
      simp only [walkLine]
      split
      · exact ih (last :: accTl) lm s del
      · split
        · exact le_trans (Nat.le_add_right s _) (ih _ _ _ _)
        · exact ih _ _ _ _

/-- When the walk gains no score and no tile has value zero, it merely pushes
every input tile: the line was already compacted relative to the walk. -/
theorem walk_pure_push (sz : Bool) :
    ∀ (input acc : List TileData) (lm : Option Nat) (s : Nat) (del : List Nat),
      (∀ t ∈ input, t.value ≠ 0) →
      (walkLine sz input acc lm s del).score = s →
      walkLine sz input acc lm s del = ⟨acc.reverse ++ input, s, del⟩ := by
  intro input
  induction input with
  | nil => intro acc lm s del _ _; simp [walkLine]
  | cons t rest ih =>
    intro acc lm s del hnz hs
    have htnz : t.value ≠ 0 := hnz t (by simp)
    have hrnz : ∀ u ∈ rest, u.value ≠ 0 := fun u hu => hnz u (by simp [hu])
    cases acc with
    | nil =>
      rw [walkLine] at hs ⊢
      rw [if_neg (fun h => htnz h.2)] at hs ⊢
      have := ih [t] lm s del hrnz hs
      rw [this]; simp
    | cons last accTl =>
      rw [walkLine] at hs ⊢
      rw [if_neg (fun h => htnz h.2)] at hs ⊢
      by_cases hm : last.value = t.value ∧ some last.id ≠ lm
      · rw [if_pos hm] at hs
        exfalso
        have hle := walk_score_le sz rest
          ({ last with value := 2 * t.value, merged := true } :: accTl)
          (some last.id) (s + 2 * t.value) (del ++ [t.id])
        rw [hs] at hle
        omega
      · rw [if_neg hm] at hs ⊢
        have := ih (t :: last :: accTl) lm s del hrnz hs
        rw [this]; simp

/-- With the `lastMergedTileId` state at `none` and the score untouched, no
merge ever fired, so every push certified a value change: consecutive values
of the walked line are distinct. -/
theorem walk_chain_of_score_eq (sz : Bool) :
    ∀ (input acc : List TileData) (s : Nat) (del : List Nat),
      (∀ t ∈ input, t.value ≠ 0) →
      (walkLine sz input acc none s del).score = s →
      List.Chain' (fun a b => a.value ≠ b.value) acc.reverse →
      List.Chain' (fun a b => a.value ≠ b.value)
        ((walkLine sz input acc none s del).out) := by
  intro input
  induction input with
  | nil =>
    intro acc s del _ _ hch
    simpa [walkLine] using hch
  | cons t rest ih =>
    intro acc s del hnz hs hch
    have htnz : t.value ≠ 0 := hnz t (by simp)
    have hrnz : ∀ u ∈ rest, u.value ≠ 0 := fun u hu => hnz u (by simp [hu])
    cases acc with
    | nil =>
      rw [walkLine] at hs ⊢
      rw [if_neg (fun hh => htnz hh.2)] at hs ⊢
      exact ih [t] s del hrnz hs (by simp)
    | cons last accTl =>
      rw [walkLine] at hs ⊢
      rw [if_neg (fun hh => htnz hh.2)] at hs ⊢
      by_cases hm : last.value = t.value ∧ some last.id ≠ (none : Option Nat)
      · rw [if_pos hm] at hs
        exfalso
        have hle := walk_score_le sz rest
          ({ last with value := 2 * t.value, merged := true } :: accTl)
          (some last.id) (s + 2 * t.value) (del ++ [t.id])
        rw [hs] at hle
        omega
      · rw [if_neg hm] at hs ⊢
        have hne : last.value ≠ t.value := by
          intro hc
          exact hm ⟨hc, by simp⟩
        refine ih (t :: last :: accTl) s del hrnz hs ?_
        rw [List.reverse_cons, List.chain'_append]
        refine ⟨hch, by simp, ?_⟩
        intro x hx y hy
        rw [List.getLast?_reverse] at hx
        simp only [List.head?_cons, Option.mem_def, Option.some.injEq] at hx hy
        rw [← hx, ← hy]
        exact hne

/-- A line whose consecutive values are already distinct is left untouched by
the walk. -/
theorem walk_of_chain (sz : Bool) :
    ∀ (input acc : List TileData) (lm : Option Nat) (s : Nat) (del : List Nat),
      (∀ t ∈ input, t.value ≠ 0) →
      List.Chain' (fun a b => a.value ≠ b.value) input →
      (∀ h t0, acc.head? = some h → input.head? = some t0 → h.value ≠ t0.value) →
      walkLine sz input acc lm s del = ⟨acc.reverse ++ input, s, del⟩ := by
  intro input
  induction input with
  | nil => intro acc lm s del _ _ _; simp [walkLine]
  | cons t rest ih =>
    intro acc lm s del hnz hchin hbd
    have htnz : t.value ≠ 0 := hnz t (by simp)
    have hrnz : ∀ u ∈ rest, u.value ≠ 0 := fun u hu => hnz u (by simp [hu])
    have hchrest : List.Chain' (fun a b => a.value ≠ b.value) rest := hchin.tail
    have hbdt : ∀ t0, rest.head? = some t0 → t.value ≠ t0.value := by
      intro t0 h0
      cases rest with
      | nil => cases h0
      | cons r rs =>
        have := List.chain'_cons.mp hchin
        cases h0
        exact this.1
    cases acc with
    | nil =>
      rw [walkLine]
      rw [if_neg (fun h => htnz h.2)]
      have : walkLine sz rest [t] lm s del = ⟨[t].reverse ++ rest, s, del⟩ := by
        refine ih [t] lm s del hrnz hchrest ?_
        intro h t0 hh h0
        cases hh
        exact hbdt t0 h0
      rw [this]; simp
    | cons last accTl =>
      rw [walkLine]
      rw [if_neg (fun h => htnz h.2)]
      have hne : last.value ≠ t.value := hbd last t rfl rfl
      rw [if_neg (fun hc => hne hc.1)]
      have : walkLine sz rest (t :: last :: accTl) lm s del =
          ⟨(t :: last :: accTl).reverse ++ rest, s, del⟩ := by
        refine ih (t :: last :: accTl) lm s del hrnz hchrest ?_
        intro h t0 hh h0
        cases hh
        exact hbdt t0 h0
      rw [this]; simp

/-- The ids of the walked line plus the ids deleted by merges account exactly
for the ids fed into the walk. -/
theorem walk_ids_perm (sz : Bool) :
    ∀ (input acc : List TileData) (lm : Option Nat) (s : Nat) (del : List Nat),
      (∀ t ∈ input, t.value ≠ 0) →
      ((walkLine sz input acc lm s del).out.map (fun t => t.id) ++
          (walkLine sz input acc lm s del).deleted).Perm
        (acc.map (fun t => t.id) ++ input.map (fun t => t.id) ++ del) := by
  intro input
  induction input with
  | nil =>
    intro acc lm s del _
    simp only [walkLine, List.map_reverse, List.map_nil, List.append_nil]
    exact List.Perm.append_right del ((acc.map fun t => t.id).reverse_perm)
  | cons t rest ih =>
    intro acc lm s del hnz
    have htnz : t.value ≠ 0 := hnz t (by simp)
    have hrnz : ∀ u ∈ rest, u.value ≠ 0 := fun u hu => hnz u (by simp [hu])
    cases acc with
    | nil =>
      rw [walkLine]
      rw [if_neg (fun h => htnz h.2)]
      have h1 := ih [t] lm s del hrnz
      simpa using h1
    | cons last accTl =>
      rw [walkLine]
      rw [if_neg (fun h => htnz h.2)]
      set A := (last :: accTl).map (fun t => t.id) with hA
      set R := rest.map (fun t => t.id) with hR
      have hmid : (A ++ (t.id :: R) ++ del).Perm (t.id :: (A ++ R ++ del)) := by
        have h3 : (A ++ t.id :: R).Perm (t.id :: (A ++ R)) := List.perm_middle
        have h4 := h3.append_right del
        simpa using h4
      by_cases hm : last.value = t.value ∧ some last.id ≠ lm
      · rw [if_pos hm]
        have h1 := ih ({ last with value := 2 * t.value, merged := true } :: accTl)
          (some last.id) (s + 2 * t.value) (del ++ [t.id]) hrnz
        have hids : ({ last with value := 2 * t.value, merged := true } :: accTl).map
            (fun t => t.id) = A := by simp [hA]
        rw [hids] at h1
        have h2 : (A ++ R ++ (del ++ [t.id])).Perm (t.id :: (A ++ R ++ del)) := by
          have h5 : (del ++ [t.id]).Perm (t.id :: del) := List.perm_append_singleton t.id del
          have h6 := h5.append_left (A ++ R)
          have h7 : ((A ++ R) ++ t.id :: del).Perm (t.id :: ((A ++ R) ++ del)) :=
            List.perm_middle
          simpa using h6.trans h7
        exact h1.trans (h2.trans hmid.symm)
      · rw [if_neg hm]
        have h1 := ih (t :: last :: accTl) lm s del hrnz
        have hids : (t :: last :: accTl).map (fun t => t.id) = t.id :: A := by simp [hA]
        rw [hids] at h1
        have h2 : ((t.id :: A) ++ R ++ del).Perm (t.id :: (A ++ R ++ del)) := by simp
        exact h1.trans (h2.trans hmid.symm)

/-- A merge replaces two equal values by their double, so the walk conserves
the total tile value. -/
theorem walk_sum (sz : Bool) :
    ∀ (input acc : List TileData) (lm : Option Nat) (s : Nat) (del : List Nat),
      (∀ t ∈ input, t.value ≠ 0) →
      valueSum (walkLine sz input acc lm s del).out = valueSum acc + valueSum input := by
  intro input
  induction input with
  | nil =>
    intro acc lm s del _
    simp [walkLine, valueSum, List.sum_reverse]
  | cons t rest ih =>
    intro acc lm s del hnz
    have htnz : t.value ≠ 0 := hnz t (by simp)
    have hrnz : ∀ u ∈ rest, u.value ≠ 0 := fun u hu => hnz u (by simp [hu])
    cases acc with
    | nil =>
      rw [walkLine]
      rw [if_neg (fun h => htnz h.2)]
      rw [ih [t] lm s del hrnz]
      simp [valueSum]
    | cons last accTl =>
      rw [walkLine]
      rw [if_neg (fun h => htnz h.2)]
      by_cases hm : last.value = t.value ∧ some last.id ≠ lm
      · rw [if_pos hm]
        rw [ih ({ last with value := 2 * t.value, merged := true } :: accTl)
          (some last.id) (s + 2 * t.value) (del ++ [t.id]) hrnz]
        simp [valueSum]
        rw [← hm.1]
        ring
      · rw [if_neg hm]
        rw [ih (t :: last :: accTl) lm s del hrnz]
        simp [valueSum]
        ring

/-- Every tile of the walked line derives from some tile of the ambient list:
it keeps id and position and is doubled at most once. -/
theorem walk_out_derived (sz : Bool) (T : List TileData) :
    ∀ (input acc : List TileData) (lm : Option Nat) (s : Nat) (del : List Nat),
      (∀ t ∈ input, t ∈ T) →
      (∀ u ∈ acc, ∃ t ∈ T, DerivedFrom t u) →
      (∀ h accTl, acc = h :: accTl → ((h ∈ T) ∨ lm = some h.id)) →
      ∀ u ∈ (walkLine sz input acc lm s del).out, ∃ t ∈ T, DerivedFrom t u := by
  intro input
  induction input with
  | nil =>
    intro acc lm s del _ hacc _ u hu
    simp only [walkLine, List.mem_reverse] at hu
    exact hacc u hu
  | cons t rest ih =>
    intro acc lm s del hin hacc hhead
    have htT : t ∈ T := hin t (by simp)
    have hrT : ∀ u ∈ rest, u ∈ T := fun u hu => hin u (by simp [hu])
    cases acc with
    | nil =>
      rw [walkLine]
      by_cases hsk : sz = true ∧ t.value = 0
      · rw [if_pos hsk]
        exact ih [] lm s del hrT hacc hhead
      · rw [if_neg hsk]
        refine ih [t] lm s del hrT ?_ ?_
        · intro u hu
          simp at hu
          exact ⟨t, htT, by simp [hu, DerivedFrom]⟩
        · intro h accTl he
          cases he
          exact Or.inl htT
    | cons last accTl =>
      rw [walkLine]
      by_cases hsk : sz = true ∧ t.value = 0
      · rw [if_pos hsk]
        exact ih (last :: accTl) lm s del hrT hacc hhead
      · rw [if_neg hsk]
        by_cases hm : last.value = t.value ∧ some last.id ≠ lm
        · rw [if_pos hm]
          have hlastT : last ∈ T := by
            rcases hhead last accTl rfl with h | h
            · exact h
            · exact absurd h.symm hm.2
          refine ih ({ last with value := 2 * t.value, merged := true } :: accTl)
            (some last.id) (s + 2 * t.value) (del ++ [t.id]) hrT ?_ ?_
          · intro u hu
            rcases List.mem_cons.mp hu with hu | hu
            · exact ⟨last, hlastT, by simp [hu, DerivedFrom, hm.1]⟩
            · exact hacc u (by simp [hu])
          · intro h accTl2 he
            cases he
            exact Or.inr rfl
        · rw [if_neg hm]
          refine ih (t :: last :: accTl) lm s del hrT ?_ ?_
          · intro u hu
            rcases List.mem_cons.mp hu with hu | hu
            · exact ⟨t, htT, by simp [hu, DerivedFrom]⟩
            · exact hacc u hu
          · intro h accTl2 he
            cases he
            exact Or.inl htT

/-! ## Placement lemmas -/

theorem setMain_id (d : Dir) (t : TileData) (v : Int) : (setMain d t v).id = t.id := by
  cases d <;> simp [setMain, Dir.vertical]

theorem setMain_value (d : Dir) (t : TileData) (v : Int) :
    (setMain d t v).value = t.value := by
  cases d <;> simp [setMain, Dir.vertical]

theorem setMain_merged (d : Dir) (t : TileData) (v : Int) :
    (setMain d t v).merged = t.merged := by
  cases d <;> simp [setMain, Dir.vertical]

theorem setMain_perp (d : Dir) (t : TileData) (v : Int) :
    perpAxis d (setMain d t v) = perpAxis d t := by
  cases d <;> simp [setMain, perpAxis, Dir.vertical]

theorem setMain_main (d : Dir) (t : TileData) (v : Int) :
    mainAxis d (setMain d t v) = v := by
  cases d <;> simp [setMain, mainAxis, Dir.vertical]

theorem setMain_self (d : Dir) (t : TileData) : setMain d t (mainAxis d t) = t := by
  cases d <;> cases t <;> simp [setMain, mainAxis, Dir.vertical]

/-- Position is determined by the perpendicular and main coordinates. -/
theorem pos_eq_of_axes (d : Dir) (a b : TileData) (hp : perpAxis d a = perpAxis d b)
    (hm : mainAxis d a = mainAxis d b) : (a.row, a.col) = (b.row, b.col) := by
  cases d <;> simp [perpAxis, mainAxis, Dir.vertical] at hp hm <;> simp [hp, hm]

theorem placeFrom_map_id (d : Dir) :
    ∀ (i : Nat) (l : List TileData),
      (placeFrom d i l).map (fun t => t.id) = l.map (fun t => t.id) := by
  intro i l
  induction l generalizing i with
  | nil => simp [placeFrom]
  | cons t ts ih => simp [placeFrom, setMain_id, ih]

theorem valueSum_cons (t : TileData) (ts : List TileData) :
    valueSum (t :: ts) = t.value + valueSum ts := by
  simp [valueSum]

theorem valueSum_append (l₁ l₂ : List TileData) :
    valueSum (l₁ ++ l₂) = valueSum l₁ + valueSum l₂ := by
  simp [valueSum]

theorem placeFrom_valueSum (d : Dir) :
    ∀ (i : Nat) (l : List TileData), valueSum (placeFrom d i l) = valueSum l := by
  intro i l
  induction l generalizing i with
  | nil => simp [placeFrom]
  | cons t ts ih =>
    rw [placeFrom, valueSum_cons, valueSum_cons, setMain_value, ih]

theorem placeFrom_mem (d : Dir) :
    ∀ (i : Nat) (l : List TileData), ∀ u ∈ placeFrom d i l,
      ∃ t ∈ l, ∃ j : Nat, u = setMain d t (targetAt d j) := by
  intro i l
  induction l generalizing i with
  | nil => simp [placeFrom]
  | cons t ts ih =>
    intro u hu
    rcases List.mem_cons.mp hu with hu | hu
    · exact ⟨t, by simp, i, hu⟩
    · rcases ih (i + 1) u hu with ⟨t0, ht0, j, hj⟩
      exact ⟨t0, by simp [ht0], j, hj⟩

/-- The sort key of a placed tile is its walk index shifted by a direction
constant, so placed lines are strictly increasing in the sort key. -/
theorem sortKey_place (d : Dir) (t : TileData) (i : Nat) :
    sortKey d (setMain d t (targetAt d i)) =
      (i : Int) - (if d.towardHigh then (GRID_SIZE : Int) - 1 else 0) := by
  cases d <;>
    simp [sortKey, targetAt, Dir.towardHigh, setMain_main] <;> ring

theorem placeFrom_sortKey_ge (d : Dir) :
    ∀ (l : List TileData) (i : Nat), ∀ u ∈ placeFrom d i l,
      (i : Int) - (if d.towardHigh then (GRID_SIZE : Int) - 1 else 0) ≤ sortKey d u := by
  intro l
  induction l with
  | nil => simp [placeFrom]
  | cons t ts ih =>
    intro i u hu
    rcases List.mem_cons.mp hu with hu | hu
    · rw [hu, sortKey_place]
    · have := ih (i + 1) u hu
      have hstep : (i : Int) - (if d.towardHigh then (GRID_SIZE : Int) - 1 else 0) ≤
          ((i + 1 : Nat) : Int) - (if d.towardHigh then (GRID_SIZE : Int) - 1 else 0) := by
        push_cast
        omega
      exact le_trans hstep this

theorem placeFrom_sortKey_lt (d : Dir) :
    ∀ (l : List TileData) (i : Nat),
      (placeFrom d i l).Pairwise (fun a b => sortKey d a < sortKey d b) := by
  intro l
  induction l with
  | nil => simp [placeFrom]
  | cons t ts ih =>
    intro i
    rw [placeFrom]
    refine List.pairwise_cons.mpr ⟨?_, ih (i + 1)⟩
    intro u hu
    have hge := placeFrom_sortKey_ge d ts (i + 1) u hu
    rw [sortKey_place]
    have : ((i : Int)) - (if d.towardHigh then (GRID_SIZE : Int) - 1 else 0) <
        ((i + 1 : Nat) : Int) - (if d.towardHigh then (GRID_SIZE : Int) - 1 else 0) := by
      push_cast
      omega
    exact lt_of_lt_of_le this hge

theorem placeFrom_length (d : Dir) :
    ∀ (l : List TileData) (i : Nat), (placeFrom d i l).length = l.length := by
  intro l
  induction l with
  | nil => intro i; rfl
  | cons t ts ih =>
    intro i
    rw [placeFrom, List.length_cons, List.length_cons, ih (i + 1)]

theorem placeFrom_getElem? (d : Dir) :
    ∀ (l : List TileData) (i k : Nat),
      (placeFrom d i l)[k]? =
        (l[k]?).map fun t => setMain d t (targetAt d (i + k)) := by
  intro l
  induction l with
  | nil => intro i k; simp [placeFrom]
  | cons t ts ih =>
    intro i k
    cases k with
    | zero => simp [placeFrom]
    | succ k2 =>
      rw [placeFrom]
      rw [List.getElem?_cons_succ, List.getElem?_cons_succ, ih (i + 1) k2]
      have : i + 1 + k2 = i + (k2 + 1) := by omega
      rw [this]

/-! ## Bucket partition: each tile lands in exactly one line -/

theorem bucket_insert_perm {α : Type} (t : α) :
    ∀ (P : List Nat) (g gc : Nat → List α) (p0 : Nat),
      p0 ∈ P → P.Nodup →
      (∀ p, p ≠ p0 → gc p = g p) → gc p0 = t :: g p0 →
      (P.flatMap gc).Perm (t :: P.flatMap g) := by
  intro P
  induction P with
  | nil => intro g gc p0 h; cases h
  | cons q P ih =>
    intro g gc p0 hp0 hnd hne heq
    rcases List.mem_cons.mp hp0 with h | h
    · subst h
      have hPeq : P.flatMap gc = P.flatMap g := by
        apply List.flatMap_congr
        intro p hp
        have : p ≠ p0 := by
          intro hc; subst hc
          exact (List.nodup_cons.mp hnd).1 hp
        exact hne p this
      rw [List.flatMap_cons, List.flatMap_cons, heq, hPeq]
      exact List.Perm.refl _
    · have hq : q ≠ p0 := by
        intro hc; subst hc
        exact (List.nodup_cons.mp hnd).1 h
      have hstep := ih g gc p0 h (List.nodup_cons.mp hnd).2 hne heq
      rw [List.flatMap_cons, List.flatMap_cons, hne q hq]
      have h1 : (g q ++ P.flatMap gc).Perm (g q ++ (t :: P.flatMap g)) :=
        hstep.append_left (g q)
      exact h1.trans List.perm_middle

theorem buckets_perm (d : Dir) :
    ∀ (tiles : List TileData),
      (∀ t ∈ tiles, ∃ p ∈ List.range GRID_SIZE, perpAxis d t = (p : Int)) →
      ((List.range GRID_SIZE).flatMap fun p =>
          tiles.filter fun t => perpAxis d t = (p : Int)).Perm tiles := by
  intro tiles
  induction tiles with
  | nil => intro _; simp
  | cons t rest ih =>
    intro hall
    rcases hall t (by simp) with ⟨p0, hp0, hperp⟩
    have hrest := ih fun u hu => hall u (by simp [hu])
    have hstep := bucket_insert_perm t (List.range GRID_SIZE)
      (fun p => rest.filter fun u => perpAxis d u = (p : Int))
      (fun p => (t :: rest).filter fun u => perpAxis d u = (p : Int))
      p0 hp0 (List.nodup_range _) ?_ ?_
    · exact hstep.trans (hrest.cons t)
    · intro p hp
      simp only [List.filter_cons]
      rw [if_neg]
      simp only [decide_eq_true_eq]
      intro hc
      apply hp
      have : (p0 : Int) = (p : Int) := by rw [← hperp, hc]
      exact_mod_cast this.symm
    · simp only [List.filter_cons]
      rw [if_pos (by simp [hperp])]

/-- Interleave two per-bucket flatMaps. -/
theorem flatMap_append_perm {α β : Type} (f g : α → List β) :
    ∀ (P : List α), (P.flatMap f ++ P.flatMap g).Perm
      (P.flatMap fun p => f p ++ g p) := by
  intro P
  induction P with
  | nil => simp
  | cons q P ih =>
    rw [List.flatMap_cons, List.flatMap_cons, List.flatMap_cons]
    have h2 : (P.flatMap f ++ (g q ++ P.flatMap g)).Perm
        (g q ++ (P.flatMap f ++ P.flatMap g)) := by
      have := (@List.perm_append_comm _ (P.flatMap f) (g q)).append_right
        (P.flatMap g)
      simpa [List.append_assoc] using this
    have h3 : (f q ++ (P.flatMap f ++ (g q ++ P.flatMap g))).Perm
        (f q ++ (g q ++ (P.flatMap f ++ P.flatMap g))) := h2.append_left (f q)
    have h4 : (f q ++ (g q ++ (P.flatMap f ++ P.flatMap g))).Perm
        (f q ++ (g q ++ P.flatMap fun p => f p ++ g p)) :=
      (ih.append_left (g q)).append_left (f q)
    have h5 := h3.trans h4
    simpa [List.append_assoc] using h5

/-! ## Rebuilding the tile list (the `tilesById` map) -/

/-- On a list with duplicate-free ids, `find?` by id returns the member
itself. -/
theorem find?_id_unique :
    ∀ (l : List TileData) (u : TileData),
      ((l.map fun t => t.id).Nodup) → u ∈ l →
      l.find? (fun x => x.id == u.id) = some u := by
  intro l
  induction l with
  | nil => intro u _ h; cases h
  | cons a rest ih =>
    intro u hnd hu
    rw [List.map_cons, List.nodup_cons] at hnd
    rcases List.mem_cons.mp hu with h | h
    · subst h
      exact List.find?_cons_of_pos rest (by simp)
    · have hane : a.id ≠ u.id := by
        intro hc
        exact hnd.1 (by rw [hc]; exact List.mem_map.mpr ⟨u, h, rfl⟩)
      rw [List.find?_cons_of_neg rest (by simpa using hane)]
      exact ih u hnd.2 h

/-- Erasing a member on which the predicate fails does not change `find?`. -/
theorem find?_erase_of_not_pred :
    ∀ (l : List TileData) (x : TileData) (p : TileData → Bool),
      p x = false → (l.erase x).find? p = l.find? p := by
  intro l
  induction l with
  | nil => intro x p _; simp
  | cons a rest ih =>
    intro x p hpx
    by_cases hax : a = x
    · subst hax
      rw [List.erase_cons_head]
      rw [List.find?_cons_of_neg rest (by simp [hpx])]
    · rw [List.erase_cons_tail (by simpa using hax)]
      cases hpa : p a
      · rw [List.find?_cons_of_neg (rest.erase x) (by simp [hpa]),
          List.find?_cons_of_neg rest (by simp [hpa])]
        exact ih x p hpx
      · rw [List.find?_cons_of_pos (rest.erase x) hpa,
          List.find?_cons_of_pos rest hpa]

/-- Ids obtained after erasing one element of a duplicate-free-id list. -/
theorem map_id_erase :
    ∀ (l : List TileData) (u : TileData),
      ((l.map fun t => t.id).Nodup) → u ∈ l →
      (l.erase u).map (fun t => t.id) = (l.map fun t => t.id).erase u.id := by
  intro l
  induction l with
  | nil => intro u _ h; cases h
  | cons a rest ih =>
    intro u hnd hu
    rw [List.map_cons, List.nodup_cons] at hnd
    by_cases hau : a = u
    · subst hau
      rw [List.erase_cons_head, List.map_cons, List.erase_cons_head]
    · have hu2 : u ∈ rest := by
        rcases List.mem_cons.mp hu with h | h
        · exact absurd h.symm hau
        · exact h
      have hane : a.id ≠ u.id := by
        intro hc
        exact hnd.1 (by rw [hc]; exact List.mem_map.mpr ⟨u, hu2, rfl⟩)
      rw [List.erase_cons_tail (by simpa using hau)]
      rw [List.map_cons, List.map_cons, List.erase_cons_tail (by simpa using hane)]
      rw [ih u hnd.2 hu2]

theorem applyUpdates_eq_filterMap (upd : List TileData) (del : List Nat)
    (tiles : List TileData) :
    applyUpdates upd del tiles = tiles.filterMap (updStep upd del) := rfl

/-- The rebuilt tile list is a permutation of the per-line updates whenever
the updates and deletions account exactly for the (duplicate-free) input ids. -/
theorem applyUpdates_perm :
    ∀ (tiles upd : List TileData) (del : List Nat),
      ((upd.map fun t => t.id) ++ del).Perm (tiles.map fun t => t.id) →
      ((tiles.map fun t => t.id).Nodup) →
      (applyUpdates upd del tiles).Perm upd := by
  intro tiles
  induction tiles with
  | nil =>
    intro upd del hperm _
    have h0 : (upd.map fun t => t.id) ++ del = [] := hperm.eq_nil
    have hupd : upd = [] := by
      rcases List.append_eq_nil.mp h0 with ⟨h1, _⟩
      exact List.map_eq_nil.mp h1
    subst hupd
    simp [applyUpdates]
  | cons t rest ih =>
    intro upd del hperm hnd
    rw [List.map_cons, List.nodup_cons] at hnd
    have hndLHS : ((upd.map fun t => t.id) ++ del).Nodup := by
      refine hperm.symm.nodup ?_
      rw [List.map_cons, List.nodup_cons]
      exact hnd
    have hdisj := List.disjoint_of_nodup_append hndLHS
    have hmem : t.id ∈ (upd.map fun t => t.id) ++ del :=
      hperm.mem_iff.mpr (by simp)
    rw [applyUpdates_eq_filterMap, List.filterMap_cons]
    rcases List.mem_append.mp hmem with hup | hdel
    · -- `t` survives: the unique update record with its id replaces it
      have hnotdel : t.id ∉ del := hdisj hup
      rcases List.mem_map.mp hup with ⟨u0, hu0, hu0id⟩
      have hupdnd : ((upd.map fun t => t.id)).Nodup :=
        (List.nodup_append.mp hndLHS).1
      have hfind : upd.find? (fun x => x.id == t.id) = some u0 := by
        rw [← hu0id]
        exact find?_id_unique upd u0 hupdnd hu0
      have hstep : updStep upd del t = some u0 := by
        rw [updStep, if_neg hnotdel, hfind]
      rw [hstep]
      have hcongr : rest.filterMap (updStep upd del) =
          rest.filterMap (updStep (upd.erase u0) del) := by
        apply List.filterMap_congr
        intro r hr
        have hrne : r.id ≠ t.id := by
          intro hc
          exact hnd.1 (by rw [← hc]; exact List.mem_map.mpr ⟨r, hr, rfl⟩)
        rw [updStep, updStep]
        have hf : (upd.erase u0).find? (fun x => x.id == r.id) =
            upd.find? (fun x => x.id == r.id) := by
          apply find?_erase_of_not_pred
          simp [hu0id]
          exact fun hc => hrne hc.symm
        rw [hf]
      have hih : (rest.filterMap (updStep (upd.erase u0) del)).Perm (upd.erase u0) := by
        rw [← applyUpdates_eq_filterMap]
        refine ih (upd.erase u0) del ?_ hnd.2
        have hmape : (upd.erase u0).map (fun t => t.id) =
            ((upd.map fun t => t.id)).erase t.id := by
          rw [map_id_erase upd u0 hupdnd hu0, hu0id]
        have herase := hperm.erase t.id
        rw [List.erase_append_left del hup] at herase
        rw [List.map_cons, List.erase_cons_head] at herase
        rw [hmape]
        exact herase
      have hfinal := (hih.cons u0).trans (List.perm_cons_erase hu0).symm
      rw [← hcongr] at hfinal
      exact hfinal
    · -- `t` was merged away: it is dropped
      have hnotup : t.id ∉ (upd.map fun t => t.id) := fun h => hdisj h hdel
      have hstep : updStep upd del t = none := by
        rw [updStep, if_pos hdel]
      rw [hstep]
      have hcongr : rest.filterMap (updStep upd del) =
          rest.filterMap (updStep upd (del.erase t.id)) := by
        apply List.filterMap_congr
        intro r hr
        have hrne : r.id ≠ t.id := by
          intro hc
          exact hnd.1 (by rw [← hc]; exact List.mem_map.mpr ⟨r, hr, rfl⟩)
        rw [updStep, updStep]
        have hiff : r.id ∈ del.erase t.id ↔ r.id ∈ del := List.mem_erase_of_ne hrne
        by_cases hd : r.id ∈ del
        · rw [if_pos hd, if_pos (hiff.mpr hd)]
        · rw [if_neg hd, if_neg (fun h => hd (hiff.mp h))]
      have hih : (rest.filterMap (updStep upd (del.erase t.id))).Perm upd := by
        rw [← applyUpdates_eq_filterMap]
        refine ih upd (del.erase t.id) ?_ hnd.2
        have herase := hperm.erase t.id
        rw [List.erase_append_right del hnotup] at herase
        rw [List.map_cons, List.erase_cons_head] at herase
        exact herase
      rw [← hcongr] at hih
      exact hih

/-! ## Consequences of well-formedness -/

theorem wf_ids_nodup {tiles : List TileData} (h : WellFormed tiles) :
    ((tiles.map fun t => t.id)).Nodup := by
  rw [List.Nodup, List.pairwise_map]
  exact h.1.imp (fun hab => hab.1)

theorem wf_value_ne_zero {tiles : List TileData} (h : WellFormed tiles) :
    ∀ t ∈ tiles, t.value ≠ 0 := by
  intro t ht
  have := (h.2 t ht).2.1
  omega

theorem wf_perp_range (d : Dir) {tiles : List TileData} (h : WellFormed tiles) :
    ∀ t ∈ tiles, ∃ p ∈ List.range GRID_SIZE, perpAxis d t = (p : Int) := by
  intro t ht
  have hb := (h.2 t ht).1
  rw [inBoard] at hb
  refine ⟨(perpAxis d t).toNat, ?_, ?_⟩
  · rw [List.mem_range]
    cases d <;> simp [perpAxis, Dir.vertical] <;> omega
  · cases d <;> simp [perpAxis, Dir.vertical] at hb ⊢ <;> omega

/-! ## Per-line facts -/

theorem groupOf_perm_filter (d : Dir) (tiles : List TileData) (p : Nat) :
    (groupOf d tiles p).Perm (tiles.filter fun t => perpAxis d t = (p : Int)) :=
  List.perm_insertionSort _ _

theorem groupOf_subset (d : Dir) (tiles : List TileData) (p : Nat) :
    ∀ t ∈ groupOf d tiles p, t ∈ tiles := by
  intro t ht
  have := (groupOf_perm_filter d tiles p).mem_iff.mp ht
  exact List.mem_of_mem_filter this

theorem groupOf_perp (d : Dir) (tiles : List TileData) (p : Nat) :
    ∀ t ∈ groupOf d tiles p, perpAxis d t = (p : Int) := by
  intro t ht
  have := (groupOf_perm_filter d tiles p).mem_iff.mp ht
  have := List.of_mem_filter this
  simpa using this

theorem groupOf_value_ne_zero (d : Dir) {tiles : List TileData}
    (h : WellFormed tiles) (p : Nat) :
    ∀ t ∈ groupOf d tiles p, t.value ≠ 0 := fun t ht =>
  wf_value_ne_zero h t (groupOf_subset d tiles p t ht)

theorem groupOf_ids_nodup (d : Dir) {tiles : List TileData}
    (h : WellFormed tiles) (p : Nat) :
    ((groupOf d tiles p).map fun t => t.id).Nodup := by
  have hsub : ((tiles.filter fun t => perpAxis d t = (p : Int)).map fun t => t.id).Sublist
      (tiles.map fun t => t.id) := (List.filter_sublist tiles).map _
  have hnd := hsub.nodup (wf_ids_nodup h)
  have hperm := (groupOf_perm_filter d tiles p).map (fun t => t.id)
  exact hperm.symm.nodup hnd

theorem lineOut_ids_perm (d : Dir) {tiles : List TileData}
    (h : WellFormed tiles) (p : Nat) :
    (((lineOut d tiles p).out.map fun t => t.id) ++ (lineOut d tiles p).deleted).Perm
      ((tiles.filter fun t => perpAxis d t = (p : Int)).map fun t => t.id) := by
  have hw := walk_ids_perm d.vertical (groupOf d tiles p) [] none 0 []
    (groupOf_value_ne_zero d h p)
  rw [lineOut]
  refine hw.trans ?_
  simp only [List.map_nil, List.nil_append, List.append_nil]
  exact (groupOf_perm_filter d tiles p).map _

theorem lineOut_sum (d : Dir) {tiles : List TileData} (h : WellFormed tiles) (p : Nat) :
    valueSum (lineOut d tiles p).out =
      valueSum (tiles.filter fun t => perpAxis d t = (p : Int)) := by
  have hw := walk_sum d.vertical (groupOf d tiles p) [] none 0 []
    (groupOf_value_ne_zero d h p)
  rw [lineOut]
  rw [hw]
  have : valueSum (groupOf d tiles p) =
      valueSum (tiles.filter fun t => perpAxis d t = (p : Int)) := by
    unfold valueSum
    exact ((groupOf_perm_filter d tiles p).map _).sum_eq
  simp [valueSum] at this ⊢
  exact this

theorem lineOut_derived (d : Dir) (tiles : List TileData) (p : Nat) :
    ∀ u ∈ (lineOut d tiles p).out, ∃ t ∈ groupOf d tiles p, DerivedFrom t u := by
  rw [lineOut]
  exact walk_out_derived d.vertical (groupOf d tiles p) (groupOf d tiles p) [] none 0 []
    (fun t ht => ht) (by intro u hu; cases hu) (by intro h accTl he; cases he)

theorem lineOut_perp (d : Dir) (tiles : List TileData) (p : Nat) :
    ∀ u ∈ (lineOut d tiles p).out, perpAxis d u = (p : Int) := by
  intro u hu
  rcases lineOut_derived d tiles p u hu with ⟨t, ht, hder⟩
  have := groupOf_perp d tiles p t ht
  rcases hder with ⟨_, hrow, hcol, _⟩
  cases d <;> simp [perpAxis, Dir.vertical] at this ⊢ <;> simp [hrow, hcol, this]

theorem placedLine_ids (d : Dir) (tiles : List TileData) (p : Nat) :
    (placedLine d tiles p).map (fun t => t.id) =
      (lineOut d tiles p).out.map (fun t => t.id) := by
  rw [placedLine]
  exact placeFrom_map_id d 0 _

theorem placedLine_sum (d : Dir) (tiles : List TileData) (p : Nat) :
    valueSum (placedLine d tiles p) = valueSum (lineOut d tiles p).out := by
  rw [placedLine]
  exact placeFrom_valueSum d 0 _

theorem placedLine_perp (d : Dir) (tiles : List TileData) (p : Nat) :
    ∀ u ∈ placedLine d tiles p, perpAxis d u = (p : Int) := by
  intro u hu
  rw [placedLine] at hu
  rcases placeFrom_mem d 0 _ u hu with ⟨t, ht, j, hj⟩
  rw [hj, setMain_perp]
  exact lineOut_perp d tiles p t ht

/-! ## Global bookkeeping of a move -/

theorem flatMap_perm_congr {α β : Type} (f g : α → List β) :
    ∀ (P : List α), (∀ p ∈ P, (f p).Perm (g p)) →
      (P.flatMap f).Perm (P.flatMap g) := by
  intro P
  induction P with
  | nil => intro _; simp
  | cons q P ih =>
    intro hall
    rw [List.flatMap_cons, List.flatMap_cons]
    exact (hall q (by simp)).append (ih fun p hp => hall p (by simp [hp]))

theorem updates_deleted_ids_perm (d : Dir) {tiles : List TileData}
    (h : WellFormed tiles) :
    (((updatesOf d tiles).map fun t => t.id) ++ deletedOf d tiles).Perm
      (tiles.map fun t => t.id) := by
  rw [updatesOf, deletedOf, List.map_flatMap]
  have h1 : ((List.range GRID_SIZE).flatMap
        (fun p => (placedLine d tiles p).map fun t => t.id) ++
      (List.range GRID_SIZE).flatMap fun p => (lineOut d tiles p).deleted).Perm
      ((List.range GRID_SIZE).flatMap fun p =>
        ((placedLine d tiles p).map fun t => t.id) ++ (lineOut d tiles p).deleted) :=
    flatMap_append_perm _ _ _
  refine h1.trans ?_
  have h2 : ((List.range GRID_SIZE).flatMap fun p =>
        ((placedLine d tiles p).map fun t => t.id) ++ (lineOut d tiles p).deleted).Perm
      ((List.range GRID_SIZE).flatMap fun p =>
        (tiles.filter fun t => perpAxis d t = (p : Int)).map fun t => t.id) := by
    refine flatMap_perm_congr _ _ _ ?_
    intro p _
    rw [placedLine_ids]
    exact lineOut_ids_perm d h p
  refine h2.trans ?_
  have h3 := (buckets_perm d tiles (wf_perp_range d h)).map (fun t => t.id)
  rw [List.map_flatMap] at h3
  exact h3

/-- After a well-formed move, the updated tile list is a permutation of the
concatenation of the walked, repositioned lines. -/
theorem moveDir_updated_perm (d : Dir) {tiles : List TileData} (h : WellFormed tiles) :
    (moveDir d tiles).updatedTiles.Perm (updatesOf d tiles) := by
  rw [moveDir]
  exact applyUpdates_perm tiles (updatesOf d tiles) (deletedOf d tiles)
    (updates_deleted_ids_perm d h) (wf_ids_nodup h)

/-! ## Grid lemmas -/

theorem createEmptyGrid_dims (size : Nat) : gridDims (createEmptyGrid size) size := by
  constructor
  · simp [createEmptyGrid]
  · intro row hrow
    rw [createEmptyGrid] at hrow
    rw [List.eq_of_mem_replicate hrow]
    simp

theorem setCell_dims {g : Grid} {size : Nat} (h : gridDims g size) (r c v : Nat) :
    gridDims (setCell g r c v) size := by
  constructor
  · rw [setCell, List.length_set]
    exact h.1
  · intro row hrow
    rcases List.mem_or_eq_of_mem_set hrow with hmem | heq
    · exact h.2 row hmem
    · by_cases hr : r < g.length
      · have hget : g.getD r [] = g[r] := List.getD_eq_getElem g [] hr
        rw [heq, hget, List.length_set]
        exact h.2 _ (List.getElem_mem hr)
      · rw [setCell, List.set_eq_of_length_le (by omega)] at hrow
        exact h.2 row hrow

theorem foldl_projectTile_dims (size : Nat) :
    ∀ (ts : List TileData) (g : Grid), gridDims g size →
      gridDims (ts.foldl (projectTile size) g) size := by
  intro ts
  induction ts with
  | nil => intro g h; exact h
  | cons t rest ih =>
    intro g h
    rw [List.foldl_cons]
    refine ih _ ?_
    rw [projectTile]
    split
    · exact setCell_dims h _ _ _
    · exact h

theorem tilesToGrid_dims (tiles : List TileData) (size : Nat) :
    gridDims (tilesToGrid tiles size) size :=
  foldl_projectTile_dims size tiles _ (createEmptyGrid_dims size)

theorem cellValue_setCell_self {g : Grid} {size : Nat} (h : gridDims g size)
    {r c : Nat} (hr : r < size) (hc : c < size) (v : Nat) :
    cellValue (setCell g r c v) r c = v := by
  have hrl : r < g.length := by rw [h.1]; exact hr
  have hcl : c < (g.getD r []).length := by
    rw [List.getD_eq_getElem g [] hrl, h.2 _ (List.getElem_mem hrl)]
    exact hc
  have h1 : (setCell g r c v)[r]? = some ((g.getD r []).set c v) := by
    rw [setCell]
    exact List.getElem?_set_self hrl
  rw [cellValue, List.getD_eq_getElem?_getD (setCell g r c v) r [], h1, Option.getD_some]
  rw [List.getD_eq_getElem?_getD ((g.getD r []).set c v) c 0,
    List.getElem?_set_self hcl, Option.getD_some]

theorem cellValue_setCell_other {g : Grid} {r c : Nat} (r2 c2 : Nat) (v : Nat)
    (hne : ¬(r2 = r ∧ c2 = c)) :
    cellValue (setCell g r c v) r2 c2 = cellValue g r2 c2 := by
  by_cases hr : r2 = r
  · subst hr
    have hcne : c2 ≠ c := fun hcc => hne ⟨rfl, hcc⟩
    by_cases hrl : r2 < g.length
    · have h1 : (setCell g r2 c v)[r2]? = some ((g.getD r2 []).set c v) := by
        rw [setCell]
        exact List.getElem?_set_self hrl
      rw [cellValue, List.getD_eq_getElem?_getD (setCell g r2 c v) r2 [], h1,
        Option.getD_some]
      rw [List.getD_eq_getElem?_getD ((g.getD r2 []).set c v) c2 0,
        List.getElem?_set_ne (fun hcc => hcne hcc.symm), cellValue,
        List.getD_eq_getElem?_getD (g.getD r2 []) c2 0]
    · rw [setCell, List.set_eq_of_length_le (by omega)]
  · have h1 : (setCell g r c v)[r2]? = g[r2]? := by
      rw [setCell]
      exact List.getElem?_set_ne (fun hcc => hr hcc.symm)
    rw [cellValue, List.getD_eq_getElem?_getD (setCell g r c v) r2 [], h1, cellValue,
      List.getD_eq_getElem?_getD g r2 []]

/-- Cells holding no tile of `ts` are unchanged by the projection fold. -/
theorem foldl_projectTile_cell_frame (size : Nat) :
    ∀ (ts : List TileData) (g : Grid) (r c : Nat),
      (∀ t ∈ ts, ¬(t.row = (r : Int) ∧ t.col = (c : Int))) →
      cellValue (ts.foldl (projectTile size) g) r c = cellValue g r c := by
  intro ts
  induction ts with
  | nil => intro g r c _; rfl
  | cons t rest ih =>
    intro g r c hno
    rw [List.foldl_cons]
    rw [ih _ r c fun u hu => hno u (by simp [hu])]
    rw [projectTile]
    split
    · next hin =>
      rw [inGridRange] at hin
      refine cellValue_setCell_other r c t.value ?_
      intro ⟨h1, h2⟩
      refine hno t (by simp) ⟨?_, ?_⟩
      · have := hin.1
        omega
      · have := hin.2.2.1
        omega
    · rfl

/-- With duplicate-free positions, projecting writes each tile's value to its
cell. -/
theorem foldl_projectTile_cell_of_mem (size : Nat) :
    ∀ (ts : List TileData) (g : Grid) (t : TileData), gridDims g size →
      ts.Pairwise (fun a b => (a.row, a.col) ≠ (b.row, b.col)) →
      t ∈ ts → inGridRange size t →
      cellValue (ts.foldl (projectTile size) g) t.row.toNat t.col.toNat = t.value := by
  intro ts
  induction ts with
  | nil => intro g t _ _ h; cases h
  | cons a rest ih =>
    intro g t hdims hpw hmem hrange
    rcases List.mem_cons.mp hmem with heq | hmem2
    · subst heq
      rw [List.foldl_cons]
      rw [foldl_projectTile_cell_frame size rest _ _ _ ?_]
      · rw [projectTile, if_pos hrange]
        exact cellValue_setCell_self hdims
          (by rw [inGridRange] at hrange; omega)
          (by rw [inGridRange] at hrange; omega) t.value
      · intro u hu hpos
        have := (List.pairwise_cons.mp hpw).1 u hu
        apply this
        rw [inGridRange] at hrange
        have h1 : t.row = u.row := by rw [hpos.1]; omega
        have h2 : t.col = u.col := by rw [hpos.2]; omega
        rw [h1, h2]
    · rw [List.foldl_cons]
      refine ih _ t ?_ (List.pairwise_cons.mp hpw).2 hmem2 hrange
      rw [projectTile]
      split
      · exact setCell_dims hdims _ _ _
      · exact hdims

theorem tilesToGrid_cell_of_mem {tiles : List TileData} {t : TileData} (size : Nat)
    (hpw : tiles.Pairwise (fun a b => (a.row, a.col) ≠ (b.row, b.col)))
    (hmem : t ∈ tiles) (hrange : inGridRange size t) :
    cellValue (tilesToGrid tiles size) t.row.toNat t.col.toNat = t.value :=
  foldl_projectTile_cell_of_mem size tiles _ t (createEmptyGrid_dims size) hpw hmem hrange

/-- A cell that reads 0 on a well-formed board holds no tile. -/
theorem wf_zero_cell_no_tile {tiles : List TileData} (h : WellFormed tiles)
    {r c : Nat} (hz : cellValue (tilesToGrid tiles GRID_SIZE) r c = 0) :
    ∀ t ∈ tiles, ¬(t.row = (r : Int) ∧ t.col = (c : Int)) := by
  intro t ht hpos
  have hb := (h.2 t ht).1
  rw [inBoard] at hb
  have hrange : inGridRange GRID_SIZE t := by
    rw [inGridRange]
    exact hb
  have hcell := tilesToGrid_cell_of_mem GRID_SIZE
    (h.1.imp fun hab => hab.2) ht hrange
  have hrn : t.row.toNat = r := by omega
  have hcn : t.col.toNat = c := by omega
  rw [hrn, hcn, hz] at hcell
  have := (h.2 t ht).2.1
  omega

/-- Out-of-range tiles contribute nothing to the projection. -/
theorem foldl_projectTile_filter (size : Nat) :
    ∀ (ts : List TileData) (g : Grid),
      ts.foldl (projectTile size) g =
        (ts.filter fun t => decide (inGridRange size t)).foldl (projectTile size) g := by
  intro ts
  induction ts with
  | nil => intro g; rfl
  | cons t rest ih =>
    intro g
    rw [List.foldl_cons, List.filter_cons]
    by_cases h : inGridRange size t
    · rw [if_pos (by simpa using h), List.foldl_cons]
      exact ih _
    · rw [if_neg (by simpa using h)]
      rw [show projectTile size g t = g from if_neg h]
      exact ih g

/-- C10: `tilesToGrid` is total over arbitrary tile lists: it always returns a
`size × size` grid, and tiles whose row or col lies outside `[0, size)` are
silently dropped from the projection (the grid equals the projection of the
in-range tiles alone). -/
theorem c10_tilesToGrid_total (tiles : List TileData) (size : Nat) (hpos : 0 < size) :
    gridDims (tilesToGrid tiles size) size ∧
      tilesToGrid tiles size =
        tilesToGrid (tiles.filter fun t => decide (inGridRange size t)) size := by
  constructor
  · exact tilesToGrid_dims tiles size
  · rw [tilesToGrid, tilesToGrid]
    exact foldl_projectTile_filter size tiles _

theorem c10_witness :
    0 < 4 ∧
      (gridDims (tilesToGrid strayTiles 4) 4 ∧
        tilesToGrid strayTiles 4 =
          tilesToGrid (strayTiles.filter fun t => decide (inGridRange 4 t)) 4) :=
  ⟨by decide, c10_tilesToGrid_total strayTiles 4 (by decide)⟩

/-- C1: the returned dense grid of `initializeGame` is NOT the projection of
the returned tile list: the grid never has the two spawned tiles written into
it and comes back all zeros.  Evaluated here at the spawn randomness that
picks index 0 and value 2 both times (ids 10 and 11): the projection of the
returned tiles differs from the returned grid. -/
theorem c1_initializeGame_grid_not_projection :
    (initializeGame 0 true 10 0 true 11).1 = createEmptyGrid GRID_SIZE ∧
      (initializeGame 0 true 10 0 true 11).2.length = 2 ∧
      tilesToGrid (initializeGame 0 true 10 0 true 11).2 GRID_SIZE ≠
        (initializeGame 0 true 10 0 true 11).1 := by
  refine ⟨rfl, rfl, ?_⟩
  decide

/-- C6: `[2,2,2,0]` moved left yields `[4,2,0,0]` with score 4: only the pair
nearest the edge merges; the third tile is not absorbed.  Checked both on the
grid-level row pipeline and on the tile-based `moveLeft`. -/
theorem c6_three_equal_tiles_single_merge :
    moveRowLeft [2, 2, 2, 0] = ([4, 2, 0, 0], 4) ∧
      moveLeft threeTwosRow =
        ⟨[⟨0, 4, 0, 0, true⟩, ⟨2, 2, 0, 1, false⟩], 4, true⟩ := by
  constructor
  · decide
  · decide

/-! ## Spawner lemmas -/

theorem range_grid_split :
    List.range GRID_SIZE = 0 :: (List.range GRID_SIZE).drop 1 := by decide

theorem allZeroCells_split (g : Grid) :
    allZeroCells g =
      zeroCellsInRow g 0 ++ ((List.range GRID_SIZE).drop 1).flatMap (zeroCellsInRow g) := by
  rw [allZeroCells]
  conv_lhs => rw [range_grid_split]
  rw [List.flatMap_cons]

theorem emptyCellsOf_eq (tiles : List TileData) :
    emptyCellsOf tiles =
      if (zeroCellsInRow (tilesToGrid tiles GRID_SIZE) 0).isEmpty then
        ((List.range GRID_SIZE).drop 1).flatMap (zeroCellsInRow (tilesToGrid tiles GRID_SIZE))
      else zeroCellsInRow (tilesToGrid tiles GRID_SIZE) 0 := rfl

theorem emptyCellsOf_nil_iff (tiles : List TileData) :
    emptyCellsOf tiles = [] ↔ allZeroCells (tilesToGrid tiles GRID_SIZE) = [] := by
  rw [emptyCellsOf_eq, allZeroCells_split]
  cases htop : (zeroCellsInRow (tilesToGrid tiles GRID_SIZE) 0).isEmpty
  · rw [if_neg (by simp [htop])]
    constructor
    · intro h
      rw [h] at htop
      simp at htop
    · intro h
      rcases List.append_eq_nil.mp h with ⟨h1, _⟩
      exact h1
  · rw [if_pos rfl]
    rw [List.isEmpty_iff] at htop
    rw [htop]
    simp

theorem emptyCellsOf_singleton {tiles : List TileData} {cl : Cell}
    (h : allZeroCells (tilesToGrid tiles GRID_SIZE) = [cl]) :
    emptyCellsOf tiles = [cl] := by
  rw [allZeroCells_split] at h
  rw [emptyCellsOf_eq]
  cases htop : zeroCellsInRow (tilesToGrid tiles GRID_SIZE) 0 with
  | nil =>
    rw [htop] at h
    rw [if_pos (by simp)]
    simpa using h
  | cons a tl =>
    rw [htop] at h
    rw [List.cons_append] at h
    have h1 := List.cons.inj h
    rcases List.append_eq_nil.mp h1.2 with ⟨h2, _⟩
    rw [if_neg (by simp [htop])]
    rw [h1.1, h2]

theorem addRandomTile_none_iff (tiles : List TileData) (ri : Nat) (roll : Bool)
    (newId : Nat) :
    addRandomTile tiles ri roll newId = none ↔ emptyCellsOf tiles = [] := by
  rw [addRandomTile]
  cases h : (emptyCellsOf tiles).isEmpty
  · rw [if_neg (by simp [h])]
    constructor
    · intro hc
      exact absurd hc (by simp)
    · intro hc
      rw [hc] at h
      simp at h
  · rw [if_pos rfl]
    rw [List.isEmpty_iff] at h
    simp [h]

theorem allZeroCells_nil_iff (g : Grid) :
    allZeroCells g = [] ↔
      ∀ r < GRID_SIZE, ∀ c < GRID_SIZE, cellValue g r c ≠ 0 := by
  rw [allZeroCells]
  rw [List.bind_eq_nil]
  constructor
  · intro h r hr c hc hz
    have h1 := h r (List.mem_range.mpr hr)
    rw [zeroCellsInRow, List.filterMap_eq_nil] at h1
    have h2 := h1 c (List.mem_range.mpr hc)
    rw [if_pos hz] at h2
    cases h2
  · intro h r hr
    rw [zeroCellsInRow, List.filterMap_eq_nil]
    intro c hc
    rw [if_neg (h r (List.mem_range.mp hr) c (List.mem_range.mp hc))]

theorem addRandomTile_of_singleton {tiles : List TileData} {cl : Cell}
    (h : allZeroCells (tilesToGrid tiles GRID_SIZE) = [cl]) (ri : Nat) (roll : Bool)
    (newId : Nat) :
    addRandomTile tiles ri roll newId =
      some (tiles ++ [⟨newId, if roll then 2 else 4, (cl.row : Int), (cl.col : Int), false⟩],
        ⟨newId, if roll then 2 else 4, (cl.row : Int), (cl.col : Int), false⟩) := by
  have he := emptyCellsOf_singleton h
  rw [addRandomTile, he]
  rw [if_neg (by simp)]
  simp [Nat.mod_one]

/-- Membership in the scanned empty-cell list certifies an in-range zero cell. -/
theorem zeroCellsInRow_mem {g : Grid} {r : Nat} {cl : Cell}
    (h : cl ∈ zeroCellsInRow g r) :
    cl.row = r ∧ cl.col < GRID_SIZE ∧ cellValue g cl.row cl.col = 0 := by
  rw [zeroCellsInRow] at h
  rcases List.mem_filterMap.mp h with ⟨c, hc, hif⟩
  by_cases hz : cellValue g r c = 0
  · rw [if_pos hz] at hif
    cases hif
    exact ⟨rfl, List.mem_range.mp hc, hz⟩
  · rw [if_neg hz] at hif
    cases hif

theorem emptyCellsOf_mem {tiles : List TileData} {cl : Cell}
    (h : cl ∈ emptyCellsOf tiles) :
    cl.row < GRID_SIZE ∧ cl.col < GRID_SIZE ∧
      cellValue (tilesToGrid tiles GRID_SIZE) cl.row cl.col = 0 := by
  rw [emptyCellsOf_eq] at h
  by_cases htop : (zeroCellsInRow (tilesToGrid tiles GRID_SIZE) 0).isEmpty
  · rw [if_pos htop] at h
    rcases List.mem_flatMap.mp h with ⟨r, hr, hcl⟩
    have hmem := zeroCellsInRow_mem hcl
    have hrr : r < GRID_SIZE := by
      have : r ∈ List.range GRID_SIZE := by
        have hsub : ((List.range GRID_SIZE).drop 1).Sublist (List.range GRID_SIZE) :=
          List.drop_sublist 1 _
        exact hsub.subset hr
      exact List.mem_range.mp this
    exact ⟨by rw [hmem.1]; exact hrr, hmem.2.1, hmem.2.2⟩
  · rw [if_neg htop] at h
    have hmem := zeroCellsInRow_mem h
    exact ⟨by rw [hmem.1]; decide, hmem.2.1, hmem.2.2⟩

/-- C7: the spawner returns "no space" (none) iff the board has no empty
cell; and on a board with exactly one empty cell, every random input appends
exactly one new tile at that cell. -/
theorem c7_spawner_no_space_and_single_cell (tiles : List TileData) (ri : Nat)
    (roll : Bool) (newId : Nat) :
    (addRandomTile tiles ri roll newId = none ↔
      ∀ r < GRID_SIZE, ∀ c < GRID_SIZE,
        cellValue (tilesToGrid tiles GRID_SIZE) r c ≠ 0) ∧
    (∀ cl : Cell, allZeroCells (tilesToGrid tiles GRID_SIZE) = [cl] →
      addRandomTile tiles ri roll newId =
        some (tiles ++
            [⟨newId, if roll then 2 else 4, (cl.row : Int), (cl.col : Int), false⟩],
          ⟨newId, if roll then 2 else 4, (cl.row : Int), (cl.col : Int), false⟩)) := by
  constructor
  · rw [addRandomTile_none_iff, emptyCellsOf_nil_iff, allZeroCells_nil_iff]
  · intro cl h
    exact addRandomTile_of_singleton h ri roll newId

theorem c7_witness :
    addRandomTile nearFullBoard 7 true 99 =
      some (nearFullBoard ++ [⟨99, 2, 2, 2, false⟩], ⟨99, 2, 2, 2, false⟩) := by
  have h := (c7_spawner_no_space_and_single_cell nearFullBoard 7 true 99).2
    ⟨2, 2⟩ (by decide)
  simpa using h

/-! ## Facts about a placed line, toward C9 / C8 / C4 -/

/-- Each tile of a placed line derives from a unique group tile: same id,
same perpendicular coordinate, value kept or doubled once. -/
theorem placedLine_derived (d : Dir) (tiles : List TileData) (p : Nat) :
    ∀ u ∈ placedLine d tiles p, ∃ t0 ∈ groupOf d tiles p,
      u.id = t0.id ∧ perpAxis d u = perpAxis d t0 ∧
        ((u.value = t0.value ∧ u.merged = t0.merged) ∨
          (u.value = 2 * t0.value ∧ u.merged = true)) := by
  intro u hu
  rw [placedLine] at hu
  rcases placeFrom_mem d 0 _ u hu with ⟨w, hw, j, hj⟩
  rcases lineOut_derived d tiles p w hw with ⟨t0, ht0, hder⟩
  rcases hder with ⟨hid, hrow, hcol, hval⟩
  refine ⟨t0, ht0, ?_, ?_, ?_⟩
  · rw [hj, setMain_id, hid]
  · rw [hj, setMain_perp]
    cases d <;> simp [perpAxis, Dir.vertical] <;> simp [hrow, hcol]
  · rw [hj, setMain_value, setMain_merged]
    exact hval

/-- Equal positions force an equal main coordinate. -/
theorem mainAxis_eq_of_pos_eq (d : Dir) {a b : TileData}
    (h : (a.row, a.col) = (b.row, b.col)) : mainAxis d a = mainAxis d b := by
  have h1 : a.row = b.row := congrArg Prod.fst h
  have h2 : a.col = b.col := congrArg Prod.snd h
  cases d <;> simp [mainAxis, Dir.vertical, h1, h2]

/-- Equal positions force an equal perpendicular coordinate. -/
theorem perpAxis_eq_of_pos_eq (d : Dir) {a b : TileData}
    (h : (a.row, a.col) = (b.row, b.col)) : perpAxis d a = perpAxis d b := by
  have h1 : a.row = b.row := congrArg Prod.fst h
  have h2 : a.col = b.col := congrArg Prod.snd h
  cases d <;> simp [perpAxis, Dir.vertical, h1, h2]

theorem placedLine_pairwise_pos (d : Dir) (tiles : List TileData) (p : Nat) :
    (placedLine d tiles p).Pairwise (fun a b => (a.row, a.col) ≠ (b.row, b.col)) := by
  have h := placeFrom_sortKey_lt d (lineOut d tiles p).out 0
  rw [placedLine]
  refine h.imp ?_
  intro a b hlt hpos
  have : sortKey d a = sortKey d b := by
    have hm := mainAxis_eq_of_pos_eq d hpos
    rw [sortKey, sortKey, hm]
  omega

theorem pairwise_flatMap_tiles {R : TileData → TileData → Prop} (P : List Nat)
    (f : Nat → List TileData) (hnd : P.Nodup)
    (hin : ∀ p ∈ P, (f p).Pairwise R)
    (hcross : ∀ p ∈ P, ∀ q ∈ P, p ≠ q → ∀ a ∈ f p, ∀ b ∈ f q, R a b) :
    (P.flatMap f).Pairwise R := by
  induction P with
  | nil => simp
  | cons q P ih =>
    rw [List.flatMap_cons, List.pairwise_append]
    have hqnd := List.nodup_cons.mp hnd
    refine ⟨hin q (by simp), ?_, ?_⟩
    · refine ih hqnd.2 (fun p hp => hin p (by simp [hp])) ?_
      intro p hp p2 hp2 hne a ha b hb
      exact hcross p (by simp [hp]) p2 (by simp [hp2]) hne a ha b hb
    · intro a ha b hb
      rcases List.mem_flatMap.mp hb with ⟨p, hp, hbp⟩
      refine hcross q (by simp) p (by simp [hp]) ?_ a ha b hbp
      intro hc
      subst hc
      exact hqnd.1 hp

theorem updatesOf_pairwise_pos (d : Dir) (tiles : List TileData) :
    (updatesOf d tiles).Pairwise (fun a b => (a.row, a.col) ≠ (b.row, b.col)) := by
  rw [updatesOf]
  refine pairwise_flatMap_tiles _ _ (List.nodup_range _)
    (fun p _ => placedLine_pairwise_pos d tiles p) ?_
  intro p hp q hq hne a ha b hb hpos
  have hpa := placedLine_perp d tiles p a ha
  have hpb := placedLine_perp d tiles q b hb
  have := perpAxis_eq_of_pos_eq d hpos
  rw [hpa, hpb] at this
  exact hne (by exact_mod_cast this)

/-- Unfolding `addRandomTile` on success. -/
theorem addRandomTile_some {tiles : List TileData} {ri : Nat} {roll : Bool}
    {newId : Nat} {res : List TileData} {nt : TileData}
    (h : addRandomTile tiles ri roll newId = some (res, nt)) :
    res = tiles ++ [nt] ∧ ∃ cl ∈ emptyCellsOf tiles,
      nt = ⟨newId, if roll then 2 else 4, (cl.row : Int), (cl.col : Int), false⟩ := by
  rw [addRandomTile] at h
  by_cases he : (emptyCellsOf tiles).isEmpty
  · rw [if_pos he] at h
    cases h
  · rw [if_neg he] at h
    have hlen : 0 < (emptyCellsOf tiles).length := by
      have hne : emptyCellsOf tiles ≠ [] := fun hnil => he (by rw [hnil]; rfl)
      exact List.length_pos.mpr hne
    have hidx : ri % (emptyCellsOf tiles).length < (emptyCellsOf tiles).length :=
      Nat.mod_lt ri hlen
    set cl := (emptyCellsOf tiles).getD (ri % (emptyCellsOf tiles).length) ⟨0, 0⟩ with hcl
    have hclm : cl ∈ emptyCellsOf tiles := by
      rw [hcl, List.getD_eq_getElem _ _ hidx]
      exact List.getElem_mem hidx
    have h2 := Option.some.inj h
    have hres : res = tiles ++
        [⟨newId, if roll then 2 else 4, (cl.row : Int), (cl.col : Int), false⟩] := by
      have := congrArg Prod.fst h2
      simp at this
      rw [← this]
    have hnt : nt = ⟨newId, if roll then 2 else 4, (cl.row : Int), (cl.col : Int), false⟩ := by
      have := congrArg Prod.snd h2
      simp at this
      rw [← this]
    refine ⟨by rw [hres, hnt], cl, hclm, hnt⟩

/-- C9: every core operation preserves position uniqueness, and a move never
changes the coordinate perpendicular to its axis: a horizontal move keeps
every surviving tile's row, a vertical move keeps its col; and the spawner
appends one tile at a previously empty cell, keeping positions unique. -/
theorem c9_position_uniqueness_and_frame (d : Dir) (tiles : List TileData)
    (h : WellFormed tiles) :
    (moveDir d tiles).updatedTiles.Pairwise
        (fun a b => (a.row, a.col) ≠ (b.row, b.col)) ∧
      (∀ u ∈ (moveDir d tiles).updatedTiles, ∀ t ∈ tiles, u.id = t.id →
        ((d = .left ∨ d = .right) → u.row = t.row) ∧
          ((d = .up ∨ d = .down) → u.col = t.col)) ∧
      (∀ (ri : Nat) (roll : Bool) (newId : Nat) (res : List TileData) (nt : TileData),
        addRandomTile tiles ri roll newId = some (res, nt) →
          res = tiles ++ [nt] ∧
            res.Pairwise (fun a b => (a.row, a.col) ≠ (b.row, b.col))) := by
  have hperm := moveDir_updated_perm d h
  refine ⟨?_, ?_, ?_⟩
  · exact (hperm.pairwise_iff (fun hxy hc => hxy hc.symm)).mpr
      (updatesOf_pairwise_pos d tiles)
  · intro u hu t ht hid
    have humem : u ∈ updatesOf d tiles := hperm.mem_iff.mp hu
    rw [updatesOf] at humem
    rcases List.mem_flatMap.mp humem with ⟨p, hp, hup⟩
    rcases placedLine_derived d tiles p u hup with ⟨t0, ht0, hid0, hperp0, _⟩
    have ht0t : t0 = t := by
      refine List.inj_on_of_nodup_map (wf_ids_nodup h)
        (groupOf_subset d tiles p t0 ht0) ht ?_
      rw [← hid0, hid]
    have hperp : perpAxis d u = perpAxis d t := by rw [hperp0, ht0t]
    constructor
    · intro hd
      rcases hd with h1 | h1 <;> subst h1 <;>
        simpa [perpAxis, Dir.vertical] using hperp
    · intro hd
      rcases hd with h1 | h1 <;> subst h1 <;>
        simpa [perpAxis, Dir.vertical] using hperp
  · intro ri roll newId res nt hsome
    rcases addRandomTile_some hsome with ⟨hres, cl, hclm, hnt⟩
    refine ⟨hres, ?_⟩
    rw [hres, List.pairwise_append]
    refine ⟨h.1.imp (fun hab => hab.2), by simp, ?_⟩
    intro a ha b hb
    simp only [List.mem_singleton] at hb
    subst hb
    rcases emptyCellsOf_mem hclm with ⟨_, _, hz⟩
    have hno := wf_zero_cell_no_tile h hz a ha
    intro hpos
    apply hno
    rw [hnt] at hpos
    exact ⟨congrArg Prod.fst hpos, congrArg Prod.snd hpos⟩

theorem c9_witness :
    (moveDir .left threeTwosRow).updatedTiles.Pairwise
      (fun a b => (a.row, a.col) ≠ (b.row, b.col)) :=
  (c9_position_uniqueness_and_frame .left threeTwosRow (by decide)).1

/-- C8: tile identity across a move: every output tile carries the id of an
input tile (no id is minted) with its value kept or doubled; every input tile
either was merged away (its id is in the deletion set) or keeps its id in the
output; and a merged-away id never appears in the output. -/
theorem c8_tile_identity (d : Dir) (tiles : List TileData) (h : WellFormed tiles) :
    (∀ u ∈ (moveDir d tiles).updatedTiles, ∃ t ∈ tiles,
        u.id = t.id ∧ (u.value = t.value ∨ u.value = 2 * t.value)) ∧
      (∀ t ∈ tiles, t.id ∈ deletedOf d tiles ∨
        ∃ u ∈ (moveDir d tiles).updatedTiles, u.id = t.id) ∧
      (∀ i ∈ deletedOf d tiles, ∀ u ∈ (moveDir d tiles).updatedTiles, u.id ≠ i) := by
  have hperm := moveDir_updated_perm d h
  have hids := updates_deleted_ids_perm d h
  refine ⟨?_, ?_, ?_⟩
  · intro u hu
    have humem : u ∈ updatesOf d tiles := hperm.mem_iff.mp hu
    rw [updatesOf] at humem
    rcases List.mem_flatMap.mp humem with ⟨p, _, hup⟩
    rcases placedLine_derived d tiles p u hup with ⟨t0, ht0, hid0, _, hval⟩
    refine ⟨t0, groupOf_subset d tiles p t0 ht0, hid0, ?_⟩
    rcases hval with hval | hval
    · exact Or.inl hval.1
    · exact Or.inr hval.1
  · intro t ht
    have : t.id ∈ ((updatesOf d tiles).map fun t => t.id) ++ deletedOf d tiles :=
      hids.mem_iff.mpr (List.mem_map.mpr ⟨t, ht, rfl⟩)
    rcases List.mem_append.mp this with hl | hr
    · rcases List.mem_map.mp hl with ⟨u, hu, hu2⟩
      exact Or.inr ⟨u, hperm.mem_iff.mpr hu, hu2⟩
    · exact Or.inl hr
  · intro i hi u hu hui
    have hnd : (((updatesOf d tiles).map fun t => t.id) ++ deletedOf d tiles).Nodup :=
      hids.symm.nodup (wf_ids_nodup h)
    have hdisj := List.disjoint_of_nodup_append hnd
    have humem : u.id ∈ (updatesOf d tiles).map fun t => t.id :=
      List.mem_map.mpr ⟨u, hperm.mem_iff.mp hu, rfl⟩
    rw [hui] at humem
    exact hdisj humem hi

theorem c8_witness : (⟨2, 2, 0, 1, false⟩ : TileData).id ≠ 1 :=
  (c8_tile_identity .left threeTwosRow (by decide)).2.2 1 (by decide)
    ⟨2, 2, 0, 1, false⟩ (by decide)

/-! ## Value-sum conservation (C3) -/

theorem valueSum_flatMap {α : Type} (f : α → List TileData) :
    ∀ (P : List α), valueSum (P.flatMap f) = (P.map fun p => valueSum (f p)).sum := by
  intro P
  induction P with
  | nil => simp [valueSum]
  | cons q P ih =>
    rw [List.flatMap_cons, valueSum_append, ih, List.map_cons, List.sum_cons]

theorem updatesOf_sum (d : Dir) {tiles : List TileData} (h : WellFormed tiles) :
    valueSum (updatesOf d tiles) = valueSum tiles := by
  rw [updatesOf, valueSum_flatMap]
  have h1 : ((List.range GRID_SIZE).map fun p => valueSum (placedLine d tiles p)) =
      (List.range GRID_SIZE).map fun (p : Nat) =>
        valueSum (tiles.filter fun t => perpAxis d t = (p : Int)) := by
    apply List.map_congr_left
    intro p _
    rw [placedLine_sum, lineOut_sum d h p]
  rw [h1, ← valueSum_flatMap]
  unfold valueSum
  exact ((buckets_perm d tiles (wf_perp_range d h)).map fun t => t.value).sum_eq

/-- C3 (amended): a move conserves the total tile value: each merge replaces
two tiles of value v by one of value 2v, so the board mass is unchanged and
the score increase is accrued separately, not added to the mass. -/
theorem c3_sum_conserved (d : Dir) (tiles : List TileData) (h : WellFormed tiles) :
    valueSum (moveDir d tiles).updatedTiles = valueSum tiles := by
  have hperm := moveDir_updated_perm d h
  have h1 : valueSum (moveDir d tiles).updatedTiles = valueSum (updatesOf d tiles) := by
    unfold valueSum
    exact (hperm.map fun t => t.value).sum_eq
  rw [h1, updatesOf_sum d h]

/-- C3 as stated is false: on `[2,2,0,0]` moved left, the tile sum stays 4
while `scoreIncrease` is 4, so sum-after ≠ sum-before + scoreIncrease. -/
theorem c3_counterexample :
    WellFormed twoTwosRow ∧
      valueSum (moveLeft twoTwosRow).updatedTiles ≠
        valueSum twoTwosRow + (moveLeft twoTwosRow).scoreIncrease := by
  constructor
  · decide
  · decide

theorem c3_witness : valueSum (moveDir .left twoTwosRow).updatedTiles =
    valueSum twoTwosRow :=
  c3_sum_conserved .left twoTwosRow (by decide)

/-! ## No-merge characterizations -/

theorem walk_del_le (sz : Bool) :
    ∀ (input acc : List TileData) (lm : Option Nat) (s : Nat) (del : List Nat),
      del.length ≤ (walkLine sz input acc lm s del).deleted.length := by
  intro input
  induction input with
  | nil => intro acc lm s del; simp [walkLine]
  | cons t rest ih =>
    intro acc lm s del
    cases acc with
    | nil =>
      rw [walkLine]
      split
      · exact ih [] lm s del
      · exact ih [t] lm s del
    | cons last accTl =>
      rw [walkLine]
      split
      · exact ih (last :: accTl) lm s del
      · split
        · refine le_trans ?_ (ih _ _ _ _)
          simp
        · exact ih _ _ _ _

/-- When the walk deletes nothing and no tile is zero, it is a pure push. -/
theorem walk_pure_push_of_del (sz : Bool) :
    ∀ (input acc : List TileData) (lm : Option Nat) (s : Nat) (del : List Nat),
      (∀ t ∈ input, t.value ≠ 0) →
      (walkLine sz input acc lm s del).deleted = del →
      walkLine sz input acc lm s del = ⟨acc.reverse ++ input, s, del⟩ := by
  intro input
  induction input with
  | nil => intro acc lm s del _ _; simp [walkLine]
  | cons t rest ih =>
    intro acc lm s del hnz hdel
    have htnz : t.value ≠ 0 := hnz t (by simp)
    have hrnz : ∀ u ∈ rest, u.value ≠ 0 := fun u hu => hnz u (by simp [hu])
    cases acc with
    | nil =>
      rw [walkLine] at hdel ⊢
      rw [if_neg (fun hh => htnz hh.2)] at hdel ⊢
      have := ih [t] lm s del hrnz hdel
      rw [this]; simp
    | cons last accTl =>
      rw [walkLine] at hdel ⊢
      rw [if_neg (fun hh => htnz hh.2)] at hdel ⊢
      by_cases hm : last.value = t.value ∧ some last.id ≠ lm
      · rw [if_pos hm] at hdel
        exfalso
        have hle := walk_del_le sz rest
          ({ last with value := 2 * t.value, merged := true } :: accTl)
          (some last.id) (s + 2 * t.value) (del ++ [t.id])
        rw [hdel] at hle
        simp at hle
      · rw [if_neg hm] at hdel ⊢
        have := ih (t :: last :: accTl) lm s del hrnz hdel
        rw [this]; simp

/-- Zero total score forces a pure push of every line. -/
theorem lineOut_of_score_zero (d : Dir) {tiles : List TileData} (h : WellFormed tiles)
    (p : Nat) (hs : (lineOut d tiles p).score = 0) :
    lineOut d tiles p = ⟨groupOf d tiles p, 0, []⟩ := by
  have := walk_pure_push d.vertical (groupOf d tiles p) [] none 0 []
    (groupOf_value_ne_zero d h p) (by rw [lineOut] at hs; exact hs)
  rw [lineOut, this]
  simp

theorem lineOut_of_del_nil (d : Dir) {tiles : List TileData} (h : WellFormed tiles)
    (p : Nat) (hdel : (lineOut d tiles p).deleted = []) :
    lineOut d tiles p = ⟨groupOf d tiles p, 0, []⟩ := by
  have := walk_pure_push_of_del d.vertical (groupOf d tiles p) [] none 0 []
    (groupOf_value_ne_zero d h p) (by rw [lineOut] at hdel; exact hdel)
  rw [lineOut, this]
  simp

theorem placeFrom_of_mainsMatch (d : Dir) :
    ∀ (l : List TileData) (i : Nat), mainsMatchFrom d i l = true →
      placeFrom d i l = l := by
  intro l
  induction l with
  | nil => intro i _; rfl
  | cons t ts ih =>
    intro i hm
    rw [mainsMatchFrom, Bool.and_eq_true] at hm
    have h1 : mainAxis d t = targetAt d i := by
      have := hm.1
      simpa using this
    rw [placeFrom, ← h1, setMain_self, ih (i + 1) hm.2]

theorem mainsMatch_placeFrom (d : Dir) :
    ∀ (l : List TileData) (i : Nat), mainsMatchFrom d i (placeFrom d i l) = true := by
  intro l
  induction l with
  | nil => intro i; rfl
  | cons t ts ih =>
    intro i
    rw [placeFrom, mainsMatchFrom, Bool.and_eq_true]
    exact ⟨by simp [setMain_main], ih (i + 1)⟩

theorem filterMap_id_of_mem {α : Type} :
    ∀ (l : List α) (f : α → Option α), (∀ t ∈ l, f t = some t) → l.filterMap f = l := by
  intro l
  induction l with
  | nil => intro f _; rfl
  | cons t ts ih =>
    intro f hall
    rw [List.filterMap_cons, hall t (by simp)]
    rw [ih f fun u hu => hall u (by simp [hu])]

/-- Every well-formed tile belongs to the flatMap of its move groups. -/
theorem mem_flatMap_groups (d : Dir) {tiles : List TileData} (h : WellFormed tiles) :
    ∀ t ∈ tiles, t ∈ (List.range GRID_SIZE).flatMap fun p => groupOf d tiles p := by
  intro t ht
  rcases wf_perp_range d h t ht with ⟨p, hp, hperp⟩
  refine List.mem_flatMap.mpr ⟨p, hp, ?_⟩
  refine (groupOf_perm_filter d tiles p).mem_iff.mpr ?_
  rw [List.mem_filter]
  exact ⟨ht, by simpa using hperp⟩

/-- If a move reports no movement, it changed nothing: the updated list is
the input list and no score accrued. -/
theorem moveDir_moved_false_fix (d : Dir) {tiles : List TileData}
    (h : WellFormed tiles) (hm : (moveDir d tiles).moved = false) :
    (moveDir d tiles).updatedTiles = tiles ∧ (moveDir d tiles).scoreIncrease = 0 := by
  have hlines : ∀ p ∈ List.range GRID_SIZE, lineMoved d tiles p = false := by
    intro p hp
    rw [moveDir] at hm
    simp only [List.any_eq_false] at hm
    simpa using hm p hp
  have hline : ∀ p ∈ List.range GRID_SIZE,
      lineOut d tiles p = ⟨groupOf d tiles p, 0, []⟩ ∧
        placedLine d tiles p = groupOf d tiles p := by
    intro p hp
    have hl := hlines p hp
    rw [lineMoved, Bool.or_eq_false_iff] at hl
    have hdel : (lineOut d tiles p).deleted = [] := by
      have := hl.1
      simpa using this
    have hout := lineOut_of_del_nil d h p hdel
    refine ⟨hout, ?_⟩
    have hmm : mainsMatchFrom d 0 (lineOut d tiles p).out = true := by
      have := hl.2
      simpa using this
    rw [placedLine, placeFrom_of_mainsMatch d _ 0 hmm, hout]
  have hupd : updatesOf d tiles = (List.range GRID_SIZE).flatMap fun p =>
      groupOf d tiles p := by
    rw [updatesOf]
    exact List.flatMap_congr fun p hp => (hline p hp).2
  have hdel : deletedOf d tiles = [] := by
    rw [deletedOf]
    rw [List.bind_eq_nil]
    intro p hp
    rw [(hline p hp).1]
  have hnd : ((updatesOf d tiles).map fun t => t.id).Nodup := by
    have hp2 := updates_deleted_ids_perm d h
    rw [hdel, List.append_nil] at hp2
    exact hp2.symm.nodup (wf_ids_nodup h)
  constructor
  · rw [moveDir]
    simp only []
    rw [applyUpdates_eq_filterMap, hdel]
    refine filterMap_id_of_mem tiles _ ?_
    intro t ht
    rw [updStep]
    rw [if_neg (by simp)]
    have htupd : t ∈ updatesOf d tiles := by
      rw [hupd]
      exact mem_flatMap_groups d h t ht
    rw [find?_id_unique (updatesOf d tiles) t hnd htupd]
  · rw [moveDir]
    simp only []
    rw [List.sum_eq_zero]
    intro x hx
    rcases List.mem_map.mp hx with ⟨p, hp, hxp⟩
    rw [(hline p hp).1] at hxp
    exact hxp.symm

/-! ## Terminal-state detection (C2) -/

/-- Distinct in-range positions bound the tile count by the cell count. -/
theorem wf_length_le {tiles : List TileData} (h : WellFormed tiles) :
    tiles.length ≤ GRID_SIZE * GRID_SIZE := by
  have hnd : (tiles.map fun t => (t.row, t.col)).Nodup := by
    rw [List.Nodup, List.pairwise_map]
    exact h.1.imp fun hab => hab.2
  have hsub : (tiles.map fun t => (t.row, t.col)).toFinset ⊆ cellPairs.toFinset := by
    intro q hq
    rw [List.mem_toFinset] at hq ⊢
    rcases List.mem_map.mp hq with ⟨t, ht, hq2⟩
    have hb := (h.2 t ht).1
    rw [inBoard] at hb
    have hg : (GRID_SIZE : Int) = 4 := rfl
    rw [hg] at hb
    have hr : t.row = 0 ∨ t.row = 1 ∨ t.row = 2 ∨ t.row = 3 := by omega
    have hc : t.col = 0 ∨ t.col = 1 ∨ t.col = 2 ∨ t.col = 3 := by omega
    subst hq2
    rcases hr with h1 | h1 | h1 | h1 <;> rcases hc with h2 | h2 | h2 | h2 <;>
      simp [cellPairs, h1, h2]
  have h1 : (tiles.map fun t => (t.row, t.col)).toFinset.card = tiles.length := by
    rw [List.toFinset_card_of_nodup hnd, List.length_map]
  have h2 : cellPairs.toFinset.card = GRID_SIZE * GRID_SIZE := by decide
  have := Finset.card_le_card hsub
  omega

/-- A failed coordinate check names a tile sitting away from its target. -/
theorem mainsMatchFrom_false (d : Dir) :
    ∀ (l : List TileData) (i : Nat), mainsMatchFrom d i l = false →
      ∃ k w, l[k]? = some w ∧ mainAxis d w ≠ targetAt d (i + k) := by
  intro l
  induction l with
  | nil =>
    intro i hfa
    simp [mainsMatchFrom] at hfa
  | cons t ts ih =>
    intro i hfa
    cases hbeq : (mainAxis d t == targetAt d i)
    · refine ⟨0, t, by simp, ?_⟩
      rw [Nat.add_zero]
      intro hc
      rw [hc] at hbeq
      simp at hbeq
    · rw [mainsMatchFrom, hbeq, Bool.true_and] at hfa
      rcases ih (i + 1) hfa with ⟨k, w, hk, hne⟩
      refine ⟨k + 1, w, by simpa using hk, ?_⟩
      have harith : i + 1 + k = i + (k + 1) := by omega
      rw [← harith]
      exact hne

/-- Conversely to `moveDir_moved_false_fix`: a move reporting movement really
changed the tile list.  A merge shrinks the list; otherwise some tile's
coordinate along the axis was reassigned to a different value. -/
theorem moveDir_changed_of_moved (d : Dir) {tiles : List TileData}
    (h : WellFormed tiles) (hm : (moveDir d tiles).moved = true) :
    (moveDir d tiles).updatedTiles ≠ tiles := by
  intro heq
  by_cases hdel : deletedOf d tiles = []
  · have hall : ∀ p ∈ List.range GRID_SIZE, (lineOut d tiles p).deleted = [] := by
      rw [deletedOf, List.bind_eq_nil] at hdel
      exact hdel
    have hmv : ∃ p ∈ List.range GRID_SIZE, lineMoved d tiles p = true := by
      have hany : ((List.range GRID_SIZE).any fun p => lineMoved d tiles p) = true := hm
      simpa [List.any_eq_true] using hany
    rcases hmv with ⟨p, hp, hlm⟩
    have hout : lineOut d tiles p = ⟨groupOf d tiles p, 0, []⟩ :=
      lineOut_of_del_nil d h p (hall p hp)
    have hmm : mainsMatchFrom d 0 (groupOf d tiles p) = false := by
      rw [lineMoved, hout] at hlm
      simpa using hlm
    rcases mainsMatchFrom_false d (groupOf d tiles p) 0 hmm with ⟨k, w, hk, hne⟩
    have hplaced : (placedLine d tiles p)[k]? =
        some (setMain d w (targetAt d (0 + k))) := by
      rw [placedLine, hout]
      show (placeFrom d 0 (groupOf d tiles p))[k]? = _
      rw [placeFrom_getElem?, hk]
      rfl
    have hw2mem : setMain d w (targetAt d (0 + k)) ∈ placedLine d tiles p := by
      rcases List.getElem?_eq_some_iff.mp hplaced with ⟨hlen, heq2⟩
      rw [← heq2]
      exact List.getElem_mem hlen
    have hw2upd : setMain d w (targetAt d (0 + k)) ∈ updatesOf d tiles := by
      rw [updatesOf]
      exact List.mem_flatMap.mpr ⟨p, hp, hw2mem⟩
    have hw2tiles : setMain d w (targetAt d (0 + k)) ∈ tiles := by
      rw [← heq]
      exact (moveDir_updated_perm d h).mem_iff.mpr hw2upd
    have hwtiles : w ∈ tiles := by
      have hwg : w ∈ groupOf d tiles p := by
        rcases List.getElem?_eq_some_iff.mp hk with ⟨hlen, heq2⟩
        rw [← heq2]
        exact List.getElem_mem hlen
      exact groupOf_subset d tiles p w hwg
    have hww : setMain d w (targetAt d (0 + k)) = w :=
      List.inj_on_of_nodup_map (wf_ids_nodup h) hw2tiles hwtiles (setMain_id d w _)
    have hmain : mainAxis d w = targetAt d (0 + k) := by
      rw [← setMain_main d w (targetAt d (0 + k)), hww]
    exact hne hmain
  · have hperm := moveDir_updated_perm d h
    have hids := updates_deleted_ids_perm d h
    have hlen1 : (moveDir d tiles).updatedTiles.length = (updatesOf d tiles).length :=
      hperm.length_eq
    have hlen2 : (updatesOf d tiles).length + (deletedOf d tiles).length =
        tiles.length := by
      have hle := hids.length_eq
      simpa using hle
    have hdlen : 0 < (deletedOf d tiles).length := List.length_pos.mpr hdel
    have hsame : (moveDir d tiles).updatedTiles.length = tiles.length := by rw [heq]
    omega

/-- C2: the terminal-state detector returns true whenever fewer than 16 tiles
are on the board; on a full board it returns false exactly when all four
simulated moves report no movement; a move reports no movement if and only if
it changes no tile's value or position (the list comes back identical); hence
the detector reports game over exactly on a full board on which no
single-step move in any direction changes anything. -/
theorem c2_terminal_detection (tiles : List TileData) (h : WellFormed tiles) :
    (tiles.length < GRID_SIZE * GRID_SIZE → checkAvailableMoves tiles = true) ∧
      (checkAvailableMoves tiles = false ↔
        (tiles.length = GRID_SIZE * GRID_SIZE ∧ (moveLeft tiles).moved = false ∧
          (moveRight tiles).moved = false ∧ (moveUp tiles).moved = false ∧
          (moveDown tiles).moved = false)) ∧
      (∀ d : Dir, (moveDir d tiles).moved = false ↔
        (moveDir d tiles).updatedTiles = tiles) ∧
      (checkAvailableMoves tiles = false ↔
        (tiles.length = GRID_SIZE * GRID_SIZE ∧
          ∀ d : Dir, (moveDir d tiles).updatedTiles = tiles)) := by
  have hiff : ∀ d : Dir, (moveDir d tiles).moved = false ↔
      (moveDir d tiles).updatedTiles = tiles := by
    intro d
    constructor
    · intro hmv
      exact (moveDir_moved_false_fix d h hmv).1
    · intro hu
      cases hmv : (moveDir d tiles).moved
      · rfl
      · exact absurd hu (moveDir_changed_of_moved d h hmv)
  have htwo : checkAvailableMoves tiles = false ↔
      (tiles.length = GRID_SIZE * GRID_SIZE ∧ (moveLeft tiles).moved = false ∧
        (moveRight tiles).moved = false ∧ (moveUp tiles).moved = false ∧
        (moveDown tiles).moved = false) := by
    by_cases hlt : tiles.length < GRID_SIZE * GRID_SIZE
    · rw [checkAvailableMoves, if_pos hlt]
      constructor
      · intro hc
        exact absurd hc (by simp)
      · intro hc
        omega
    · have h16 : tiles.length = GRID_SIZE * GRID_SIZE := by
        have := wf_length_le h
        omega
      rw [checkAvailableMoves, if_neg hlt]
      cases hL : (moveLeft tiles).moved <;> cases hR : (moveRight tiles).moved <;>
        cases hU : (moveUp tiles).moved <;> cases hD : (moveDown tiles).moved <;>
        simp [hL, hR, hU, hD, h16]
  refine ⟨?_, htwo, hiff, ?_⟩
  · intro hlt
    rw [checkAvailableMoves, if_pos hlt]
  · rw [htwo]
    constructor
    · intro hc
      refine ⟨hc.1, ?_⟩
      intro d
      cases d
      · exact (hiff .left).mp hc.2.1
      · exact (hiff .right).mp hc.2.2.1
      · exact (hiff .up).mp hc.2.2.2.1
      · exact (hiff .down).mp hc.2.2.2.2
    · intro hc
      exact ⟨hc.1, (hiff .left).mpr (hc.2 .left), (hiff .right).mpr (hc.2 .right),
        (hiff .up).mpr (hc.2 .up), (hiff .down).mpr (hc.2 .down)⟩

theorem c2_witness : checkAvailableMoves threeTwosRow = true :=
  (c2_terminal_detection threeTwosRow (by decide)).1 (by decide)

/-! ## Toward idempotence (C5): the output of a merge-free move re-sorts to
itself and walks to itself -/

theorem placeFrom_map_value (d : Dir) :
    ∀ (l : List TileData) (i : Nat),
      (placeFrom d i l).map (fun t => t.value) = l.map (fun t => t.value) := by
  intro l
  induction l with
  | nil => intro i; rfl
  | cons t ts ih =>
    intro i
    rw [placeFrom, List.map_cons, List.map_cons, setMain_value, ih (i + 1)]

/-- A permutation of a strictly sorted list that is itself (weakly) sorted is
that list. -/
theorem eq_of_perm_sorted_strict (d : Dir) :
    ∀ (l1 l2 : List TileData), l1.Perm l2 →
      l2.Pairwise (fun a b => sortKey d a < sortKey d b) →
      l1.Pairwise (fun a b => sortKey d a ≤ sortKey d b) →
      l1 = l2 := by
  intro l1
  induction l1 with
  | nil =>
    intro l2 hp _ _
    exact (hp.symm.eq_nil).symm
  | cons a t1 ih =>
    intro l2 hp h2 h1
    cases l2 with
    | nil => exact absurd hp.eq_nil (by simp)
    | cons b t2 =>
      have hab : a = b := by
        by_contra hne
        have ha2 : a ∈ t2 := by
          have hmem : a ∈ b :: t2 := hp.mem_iff.mp (List.mem_cons_self a t1)
          rcases List.mem_cons.mp hmem with hc | hc
          · exact absurd hc hne
          · exact hc
        have hb1 : b ∈ t1 := by
          have hmem : b ∈ a :: t1 := hp.mem_iff.mpr (List.mem_cons_self b t2)
          rcases List.mem_cons.mp hmem with hc | hc
          · exact absurd hc.symm hne
          · exact hc
        have hlt : sortKey d b < sortKey d a := (List.pairwise_cons.mp h2).1 a ha2
        have hle : sortKey d a ≤ sortKey d b := (List.pairwise_cons.mp h1).1 b hb1
        omega
      subst hab
      have hpt : t1.Perm t2 := hp.cons_inv
      rw [ih t2 hpt (List.pairwise_cons.mp h2).2 (List.pairwise_cons.mp h1).2]

theorem filter_flatMap {α β : Type} (P : List α) (f : α → List β) (pred : β → Bool) :
    (P.flatMap f).filter pred = P.flatMap fun p => (f p).filter pred := by
  induction P with
  | nil => rfl
  | cons q P ih =>
    rw [List.flatMap_cons, List.flatMap_cons, List.filter_append, ih]

theorem flatMap_single {α : Type} :
    ∀ (P : List Nat) (p : Nat) (f : Nat → List α), p ∈ P → P.Nodup →
      (P.flatMap fun q => if q = p then f q else []) = f p := by
  intro P
  induction P with
  | nil => intro p f hp; cases hp
  | cons q P ih =>
    intro p f hp hnd
    rw [List.flatMap_cons]
    have hqnd := List.nodup_cons.mp hnd
    rcases List.mem_cons.mp hp with hqp | hp2
    · subst hqp
      rw [if_pos rfl]
      have hrest : (P.flatMap fun q2 => if q2 = p then f q2 else []) = [] := by
        rw [List.bind_eq_nil]
        intro q2 hq2
        rw [if_neg]
        intro hc
        subst hc
        exact hqnd.1 hq2
      rw [hrest, List.append_nil]
    · have hq : q ≠ p := by
        intro hc
        subst hc
        exact hqnd.1 hp2
      rw [if_neg hq, List.nil_append]
      exact ih p f hp2 hqnd.2

/-- C5 (amended): when a move performs no merge (`scoreIncrease = 0`),
re-running the same direction is idempotent: the second application reports
`moved = false`, gains no score, and returns the tile list unchanged. -/
theorem c5_idempotent_when_no_merge (d : Dir) (tiles : List TileData)
    (h : WellFormed tiles) (hs : (moveDir d tiles).scoreIncrease = 0) :
    moveDir d ((moveDir d tiles).updatedTiles) =
      ⟨(moveDir d tiles).updatedTiles, 0, false⟩ := by
  set T2 := (moveDir d tiles).updatedTiles with hT2
  have hs2 : ((List.range GRID_SIZE).map fun p => (lineOut d tiles p).score).sum = 0 := hs
  have hls : ∀ p ∈ List.range GRID_SIZE, (lineOut d tiles p).score = 0 := by
    intro p hp
    exact List.sum_eq_zero_iff.mp hs2 _ (List.mem_map.mpr ⟨p, hp, rfl⟩)
  have hline : ∀ p ∈ List.range GRID_SIZE,
      lineOut d tiles p = ⟨groupOf d tiles p, 0, []⟩ :=
    fun p hp => lineOut_of_score_zero d h p (hls p hp)
  have hplaced : ∀ p ∈ List.range GRID_SIZE,
      placedLine d tiles p = placeFrom d 0 (groupOf d tiles p) := by
    intro p hp
    rw [placedLine, hline p hp]
  have hchain : ∀ p ∈ List.range GRID_SIZE,
      List.Chain' (fun a b => a.value ≠ b.value) (groupOf d tiles p) := by
    intro p hp
    have hsc : (walkLine d.vertical (groupOf d tiles p) [] none 0 []).score = 0 := by
      have := congrArg LineOut.score (hline p hp)
      simpa [lineOut] using this
    have hw := walk_chain_of_score_eq d.vertical (groupOf d tiles p) [] 0 []
      (groupOf_value_ne_zero d h p) hsc (by simp)
    have hout : (walkLine d.vertical (groupOf d tiles p) [] none 0 []).out =
        groupOf d tiles p := by
      have := congrArg LineOut.out (hline p hp)
      simpa [lineOut] using this
    rw [hout] at hw
    exact hw
  have hdel0 : deletedOf d tiles = [] := by
    rw [deletedOf, List.bind_eq_nil]
    intro p hp
    rw [hline p hp]
  have hnd : ((updatesOf d tiles).map fun t => t.id).Nodup := by
    have hp2 := updates_deleted_ids_perm d h
    rw [hdel0, List.append_nil] at hp2
    exact hp2.symm.nodup (wf_ids_nodup h)
  have hpermT2 : T2.Perm (updatesOf d tiles) := moveDir_updated_perm d h
  have hgroup2 : ∀ p ∈ List.range GRID_SIZE,
      groupOf d T2 p = placedLine d tiles p := by
    intro p hp
    have hf : (T2.filter fun t => decide (perpAxis d t = (p : Int))).Perm
        (placedLine d tiles p) := by
      have h1 := hpermT2.filter (fun t => decide (perpAxis d t = (p : Int)))
      rw [updatesOf, filter_flatMap] at h1
      have h3 : ∀ q ∈ List.range GRID_SIZE,
          ((placedLine d tiles q).filter fun t => decide (perpAxis d t = (p : Int))) =
            if q = p then placedLine d tiles q else [] := by
        intro q hq
        by_cases hqp : q = p
        · subst hqp
          rw [if_pos rfl, List.filter_eq_self]
          intro u hu
          simpa using placedLine_perp d tiles q u hu
        · rw [if_neg hqp, List.filter_eq_nil_iff]
          intro u hu
          have hperpu := placedLine_perp d tiles q u hu
          simp only [decide_eq_true_eq]
          rw [hperpu]
          intro hc
          exact hqp (by exact_mod_cast hc)
      rw [List.flatMap_congr h3, flatMap_single _ p _ hp (List.nodup_range _)] at h1
      exact h1
    rw [groupOf, sortTiles]
    haveI instTot : IsTotal TileData (fun a b => sortKey d a ≤ sortKey d b) :=
      ⟨fun a b => le_total _ _⟩
    haveI instTrans : IsTrans TileData (fun a b => sortKey d a ≤ sortKey d b) :=
      ⟨fun a b c h1 h2 => le_trans h1 h2⟩
    refine eq_of_perm_sorted_strict d _ _ ?_ ?_ ?_
    · exact (List.perm_insertionSort _ _).trans hf
    · rw [hplaced p hp]
      exact placeFrom_sortKey_lt d _ 0
    · exact List.sorted_insertionSort _ _
  have hvals2 : ∀ p ∈ List.range GRID_SIZE, ∀ u ∈ groupOf d T2 p, u.value ≠ 0 := by
    intro p hp u hu
    rw [hgroup2 p hp, hplaced p hp] at hu
    rcases placeFrom_mem d 0 _ u hu with ⟨w, hw, j, hj⟩
    rw [hj, setMain_value]
    exact groupOf_value_ne_zero d h p w hw
  have hchain2 : ∀ p ∈ List.range GRID_SIZE,
      List.Chain' (fun a b => a.value ≠ b.value) (groupOf d T2 p) := by
    intro p hp
    rw [hgroup2 p hp, hplaced p hp]
    have hmv : (placeFrom d 0 (groupOf d tiles p)).map (fun t => t.value) =
        (groupOf d tiles p).map (fun t => t.value) :=
      placeFrom_map_value d _ 0
    have hc1 : List.Chain' (fun a b : Nat => a ≠ b)
        ((groupOf d tiles p).map fun t => t.value) :=
      (List.chain'_map _).mpr (hchain p hp)
    rw [← hmv] at hc1
    exact (List.chain'_map _).mp hc1
  have hline2 : ∀ p ∈ List.range GRID_SIZE,
      lineOut d T2 p = ⟨groupOf d T2 p, 0, []⟩ := by
    intro p hp
    rw [lineOut]
    rw [walk_of_chain d.vertical (groupOf d T2 p) [] none 0 [] (hvals2 p hp)
      (hchain2 p hp) (by intro h2 t0 hh; cases hh)]
    simp
  have hmm2 : ∀ p ∈ List.range GRID_SIZE,
      mainsMatchFrom d 0 (groupOf d T2 p) = true := by
    intro p hp
    rw [hgroup2 p hp, hplaced p hp]
    exact mainsMatch_placeFrom d _ 0
  have hplaced2 : ∀ p ∈ List.range GRID_SIZE,
      placedLine d T2 p = placedLine d tiles p := by
    intro p hp
    rw [placedLine, hline2 p hp]
    show placeFrom d 0 (groupOf d T2 p) = _
    rw [placeFrom_of_mainsMatch d _ 0 (hmm2 p hp)]
    exact hgroup2 p hp
  have hmoved2 : (moveDir d T2).moved = false := by
    show ((List.range GRID_SIZE).any fun p => lineMoved d T2 p) = false
    rw [List.any_eq_false]
    intro p hp
    rw [lineMoved, hline2 p hp]
    simp [hmm2 p hp]
  have hscore2 : (moveDir d T2).scoreIncrease = 0 := by
    show ((List.range GRID_SIZE).map fun p => (lineOut d T2 p).score).sum = 0
    rw [List.sum_eq_zero_iff]
    intro x hx
    rcases List.mem_map.mp hx with ⟨p, hp, hxp⟩
    rw [hline2 p hp] at hxp
    exact hxp.symm
  have hupd2 : (moveDir d T2).updatedTiles = T2 := by
    show applyUpdates (updatesOf d T2) (deletedOf d T2) T2 = T2
    have hu2 : updatesOf d T2 = updatesOf d tiles := by
      rw [updatesOf, updatesOf]
      refine List.flatMap_congr ?_
      intro p hp
      rw [hplaced2 p hp]
    have hd2 : deletedOf d T2 = [] := by
      rw [deletedOf, List.bind_eq_nil]
      intro p hp
      rw [hline2 p hp]
    rw [hu2, hd2, applyUpdates_eq_filterMap]
    refine filterMap_id_of_mem T2 _ ?_
    intro u hu
    rw [updStep, if_neg (by simp)]
    rw [find?_id_unique (updatesOf d tiles) u hnd (hpermT2.mem_iff.mp hu)]
  have hsplit : moveDir d T2 = ⟨(moveDir d T2).updatedTiles,
      (moveDir d T2).scoreIncrease, (moveDir d T2).moved⟩ := rfl
  rw [hsplit, hupd2, hscore2, hmoved2]

/-- C5 as stated is false: on `[2,2,2,2]`, the first `moveLeft` produces
`[4,4]`, and the second application (no spawn in between) merges again:
it reports `moved = true` and changes the list. -/
theorem c5_counterexample :
    WellFormed fourTwosRow ∧
      (moveLeft (moveLeft fourTwosRow).updatedTiles).moved = true ∧
      (moveLeft (moveLeft fourTwosRow).updatedTiles).updatedTiles ≠
        (moveLeft fourTwosRow).updatedTiles := by
  refine ⟨by decide, by decide, by decide⟩

theorem c5_witness :
    moveDir .left ((moveDir .left loneTile).updatedTiles) =
      ⟨(moveDir .left loneTile).updatedTiles, 0, false⟩ :=
  c5_idempotent_when_no_merge .left loneTile (by decide) (by decide)

/-! ## Adjacent equal tiles after a move (C4) -/

theorem mergedAdj_symm {a b : TileData} (h : MergedAdj a b) : MergedAdj b a := by
  intro hv
  rcases h hv.symm with h1 | h1
  · exact Or.inr h1
  · exact Or.inl h1

/-- In the walked line, two consecutive equal values certify that one of the
two tiles was a merge target: the guard lets an equal-valued neighbor stand
only right after a merge. -/
theorem walk_adjacent_merged (sz : Bool) :
    ∀ (input acc : List TileData) (lm : Option Nat) (s : Nat) (del : List Nat),
      ((input.map fun t => t.id).Nodup) →
      (∀ t ∈ input, ∀ a ∈ acc, t.id ≠ a.id) →
      (∀ j, lm = some j → ∃ a ∈ acc, a.id = j) →
      (∀ h0 tl, acc = h0 :: tl → lm = some h0.id → h0.merged = true) →
      List.Chain' MergedAdj acc →
      List.Chain' MergedAdj (walkLine sz input acc lm s del).out := by
  intro input
  induction input with
  | nil =>
    intro acc lm s del _ _ _ _ hch
    rw [walkLine]
    show List.Chain' MergedAdj acc.reverse
    rw [List.chain'_reverse]
    exact List.Chain'.imp (fun a b hab => mergedAdj_symm hab) hch
  | cons t rest ih =>
    intro acc lm s del hnd hdisj hlmin hhead hch
    have hndr : ((rest.map fun t => t.id).Nodup) := by
      rw [List.map_cons, List.nodup_cons] at hnd
      exact hnd.2
    have htfresh : ∀ a ∈ rest, a.id ≠ t.id := by
      intro a ha hc
      rw [List.map_cons, List.nodup_cons] at hnd
      exact hnd.1 (by rw [← hc]; exact List.mem_map.mpr ⟨a, ha, rfl⟩)
    cases acc with
    | nil =>
      rw [walkLine]
      by_cases hsk : sz = true ∧ t.value = 0
      · rw [if_pos hsk]
        exact ih [] lm s del hndr (by intro a _ b hb; cases hb) hlmin hhead hch
      · rw [if_neg hsk]
        refine ih [t] lm s del hndr ?_ ?_ ?_ (by simp)
        · intro a ha b hb
          rcases List.mem_cons.mp hb with hb | hb
          · rw [hb]
            exact htfresh a ha
          · cases hb
        · intro j hj
          rcases hlmin j hj with ⟨a, ha, _⟩
          cases ha
        · intro h0 tl he hlm
          cases he
          rcases hlmin _ hlm with ⟨a, ha, _⟩
          cases ha
    | cons last accTl =>
      rw [walkLine]
      by_cases hsk : sz = true ∧ t.value = 0
      · rw [if_pos hsk]
        exact ih (last :: accTl) lm s del hndr
          (fun a ha => hdisj a (by simp [ha])) hlmin hhead hch
      · rw [if_neg hsk]
        by_cases hm : last.value = t.value ∧ some last.id ≠ lm
        · rw [if_pos hm]
          refine ih ({ last with value := 2 * t.value, merged := true } :: accTl)
            (some last.id) (s + 2 * t.value) (del ++ [t.id]) hndr ?_ ?_ ?_ ?_
          · intro a ha b hb
            rcases List.mem_cons.mp hb with hb | hb
            · rw [hb]
              exact hdisj a (by simp [ha]) last (by simp)
            · exact hdisj a (by simp [ha]) b (by simp [hb])
          · intro j hj
            refine ⟨{ last with value := 2 * t.value, merged := true }, by simp, ?_⟩
            have := Option.some.inj hj
            rw [← this]
          · intro h0 tl he _
            cases he
            rfl
          · rw [List.chain'_cons']
            refine ⟨?_, (List.chain'_cons'.mp hch).2⟩
            intro y _ _
            exact Or.inl rfl
        · rw [if_neg hm]
          refine ih (t :: last :: accTl) lm s del hndr ?_ ?_ ?_ ?_
          · intro a ha b hb
            rcases List.mem_cons.mp hb with hb | hb
            · rw [hb]
              exact htfresh a ha
            · exact hdisj a (by simp [ha]) b hb
          · intro j hj
            rcases hlmin j hj with ⟨a, ha, ha2⟩
            exact ⟨a, by simp [ha], ha2⟩
          · intro h0 tl he hlm
            cases he
            rcases hlmin _ hlm with ⟨a, ha, ha2⟩
            exact absurd ha2.symm (hdisj t (by simp) a ha)
          · rw [List.chain'_cons']
            refine ⟨?_, hch⟩
            intro y hy hv
            have hy2 : y = last := by
              simp only [List.head?_cons, Option.mem_def, Option.some.injEq] at hy
              exact hy.symm
            rw [hy2] at hv ⊢
            have hlm2 : lm = some last.id := by
              by_contra hc
              exact hm ⟨hv.symm, fun hc2 => hc hc2.symm⟩
            exact Or.inr (hhead last accTl rfl hlm2)

/-- Chain of adjacency facts on every walked line. -/
theorem lineOut_adjacent_merged (d : Dir) {tiles : List TileData}
    (h : WellFormed tiles) (p : Nat) :
    List.Chain' MergedAdj (lineOut d tiles p).out := by
  rw [lineOut]
  refine walk_adjacent_merged d.vertical (groupOf d tiles p) [] none 0 []
    (groupOf_ids_nodup d h p) (by intro a _ b hb; cases hb) ?_ ?_ (by simp)
  · intro j hj
    cases hj
  · intro h0 tl he
    cases he

/-- Consecutive entries of a chained list, addressed by index. -/
theorem chain'_of_getElem? {R : TileData → TileData → Prop} {l : List TileData}
    (hch : List.Chain' R l) (k : Nat) {a b : TileData}
    (ha : l[k]? = some a) (hb : l[k + 1]? = some b) : R a b := by
  rcases List.getElem?_eq_some_iff.mp ha with ⟨hlen, heq⟩
  rcases List.getElem?_eq_some_iff.mp hb with ⟨hlen2, heq2⟩
  have hadj := List.chain'_iff_get.mp hch k (by omega)
  rw [List.get_eq_getElem, List.get_eq_getElem] at hadj
  have e1 : l[(⟨k, by omega⟩ : Fin l.length).val] = a := heq
  have e2 : l[(⟨k + 1, by omega⟩ : Fin l.length).val] = b := heq2
  rw [e1, e2] at hadj
  exact hadj

/-- C4 (amended): after a move on a well-formed board whose tiles carry no
stale merge flags, two adjacent equal-valued tiles on a line along the move's
axis always include at least one tile flagged as merged by that move. -/
theorem c4_adjacent_equal_has_merged (d : Dir) (tiles : List TileData)
    (h : WellFormed tiles) (hflags : ∀ t ∈ tiles, t.merged = false) :
    ∀ u ∈ (moveDir d tiles).updatedTiles, ∀ v ∈ (moveDir d tiles).updatedTiles,
      perpAxis d u = perpAxis d v → mainAxis d v = mainAxis d u + 1 →
      u.value = v.value → (u.merged = true ∨ v.merged = true) := by
  intro u hu v hv hperp hmain hval
  have hpermT := moveDir_updated_perm d h
  have humem : u ∈ updatesOf d tiles := hpermT.mem_iff.mp hu
  have hvmem : v ∈ updatesOf d tiles := hpermT.mem_iff.mp hv
  rw [updatesOf] at humem hvmem
  rcases List.mem_flatMap.mp humem with ⟨p, hp, hup⟩
  rcases List.mem_flatMap.mp hvmem with ⟨q, hq, hvq⟩
  have hpq : q = p := by
    have h1 := placedLine_perp d tiles p u hup
    have h2 := placedLine_perp d tiles q v hvq
    rw [h1, h2] at hperp
    exact_mod_cast hperp.symm
  subst hpq
  rw [placedLine] at hup hvq
  rcases List.mem_iff_getElem?.mp hup with ⟨ku, hku⟩
  rcases List.mem_iff_getElem?.mp hvq with ⟨kv, hkv⟩
  rw [placeFrom_getElem?] at hku hkv
  rcases Option.map_eq_some'.mp hku with ⟨wu, hwu, hwu2⟩
  rcases Option.map_eq_some'.mp hkv with ⟨wv, hwv, hwv2⟩
  have humain : mainAxis d u = targetAt d ku := by
    rw [← hwu2, setMain_main]
    norm_num
  have hvmain : mainAxis d v = targetAt d kv := by
    rw [← hwv2, setMain_main]
    norm_num
  have huval : u.value = wu.value := by rw [← hwu2, setMain_value]
  have hvval : v.value = wv.value := by rw [← hwv2, setMain_value]
  have humerged : u.merged = wu.merged := by rw [← hwu2, setMain_merged]
  have hvmerged : v.merged = wv.merged := by rw [← hwv2, setMain_merged]
  have hchain := lineOut_adjacent_merged d h q
  rw [humain, hvmain] at hmain
  cases hth : d.towardHigh
  · have htk : ∀ k : Nat, targetAt d k = (k : Int) := by
      intro k
      rw [targetAt, hth]
      simp
    rw [htk ku, htk kv] at hmain
    have hkv2 : kv = ku + 1 := by exact_mod_cast hmain
    subst hkv2
    have hadj := chain'_of_getElem? hchain ku hwu hwv
    rcases hadj (by rw [← huval, ← hvval]; exact hval) with h1 | h1
    · exact Or.inl (by rw [humerged]; exact h1)
    · exact Or.inr (by rw [hvmerged]; exact h1)
  · have htk : ∀ k : Nat, targetAt d k = (GRID_SIZE : Int) - 1 - k := by
      intro k
      rw [targetAt, hth]
      simp
    rw [htk ku, htk kv] at hmain
    have hku2 : ku = kv + 1 := by omega
    subst hku2
    have hadj := chain'_of_getElem? hchain kv hwv hwu
    rcases hadj (by rw [← huval, ← hvval]; exact hval.symm) with h1 | h1
    · exact Or.inr (by rw [hvmerged]; exact h1)
    · exact Or.inl (by rw [humerged]; exact h1)

/-- C4 as stated is false: on `[2,2,2,2]` moved left, the result holds
adjacent tiles of equal value 4 at columns 0 and 1 of row 0. -/
theorem c4_counterexample :
    WellFormed fourTwosRow ∧ (∀ t ∈ fourTwosRow, t.merged = false) ∧
      ¬(∀ u ∈ (moveLeft fourTwosRow).updatedTiles,
          ∀ v ∈ (moveLeft fourTwosRow).updatedTiles,
          u.row = v.row → v.col = u.col + 1 → u.value ≠ v.value) := by
  refine ⟨by decide, by decide, by decide⟩

theorem c4_witness :
    (⟨0, 4, 0, 0, true⟩ : TileData).merged = true ∨
      (⟨2, 4, 0, 1, true⟩ : TileData).merged = true :=
  c4_adjacent_equal_has_merged .left fourTwosRow (by decide) (by decide)
    ⟨0, 4, 0, 0, true⟩ (by decide) ⟨2, 4, 0, 1, true⟩ (by decide)
    (by decide) (by decide) (by decide)

end Game2048